import Mathlib

/-!
Verification development for the Prioritized DCI reference implementation
(dynamic continuous indexing for exact k-nearest-neighbour search).

The development shallowly embeds the C sources:
* `compute_dist`, `matmul`, `rand_normal` from src/util.c;
* the index/query data model from src/include/dci.h.

Machine doubles are idealized as exact arithmetic: the drand48 stream and all
projected coordinates / squared distances are rationals, and real-valued
results (square roots, logarithms) live in `ℝ`.  The query engine itself
(dci.c) is not part of the provided sources, so it is modelled from the
specification, as marked on each such definition.
-/

/-! ### Embedding of src/util.c -/

/-- The running sum `sq_dist` accumulated by the loop of `compute_dist`
(src/util.c lines 53-59): `sq_dist += (vec1[i] - vec2[i])*(vec1[i] - vec2[i])`
for `i = 0 .. dim-1`. -/
def sq_dist_acc (vec1 vec2 : ℕ → ℝ) (dim : ℕ) : ℝ :=
  (List.range dim).foldl (fun acc i => acc + (vec1 i - vec2 i) * (vec1 i - vec2 i)) 0

/-- Embedding of `compute_dist` (src/util.c): the loop accumulating squared
coordinate differences followed by `sqrt`. -/
noncomputable def compute_dist (vec1 vec2 : ℕ → ℝ) (dim : ℕ) : ℝ :=
  Real.sqrt (sq_dist_acc vec1 vec2 dim)

/-- Exact (rational) version of the squared-distance loop of `compute_dist`,
used by the query-engine model to rank candidates. -/
def sq_dist_rat (vec1 vec2 : ℕ → ℚ) (dim : ℕ) : ℚ :=
  (List.range dim).foldl (fun acc i => acc + (vec1 i - vec2 i) * (vec1 i - vec2 i)) 0

theorem foldl_add_range {M : Type*} [AddCommMonoid M] (f : ℕ → M) (n : ℕ) :
    (List.range n).foldl (fun acc i => acc + f i) 0 = ∑ i ∈ Finset.range n, f i := by
  induction n with
  | zero => simp
  | succ n ih =>
      rw [List.range_succ, List.foldl_append, Finset.sum_range_succ, ih]
      simp

theorem sq_dist_acc_eq_sum (vec1 vec2 : ℕ → ℝ) (dim : ℕ) :
    sq_dist_acc vec1 vec2 dim
      = ∑ i ∈ Finset.range dim, (vec1 i - vec2 i) * (vec1 i - vec2 i) :=
  foldl_add_range (fun i => (vec1 i - vec2 i) * (vec1 i - vec2 i)) dim

theorem sq_dist_rat_eq_sum (vec1 vec2 : ℕ → ℚ) (dim : ℕ) :
    sq_dist_rat vec1 vec2 dim
      = ∑ i ∈ Finset.range dim, (vec1 i - vec2 i) * (vec1 i - vec2 i) :=
  foldl_add_range (fun i => (vec1 i - vec2 i) * (vec1 i - vec2 i)) dim

theorem sq_dist_rat_cast (vec1 vec2 : ℕ → ℚ) (dim : ℕ) :
    ((sq_dist_rat vec1 vec2 dim : ℚ) : ℝ)
      = sq_dist_acc (fun i => (vec1 i : ℝ)) (fun i => (vec2 i : ℝ)) dim := by
  rw [sq_dist_rat_eq_sum, sq_dist_acc_eq_sum]
  push_cast
  rfl

/-- Modelled from the spec: the external BLAS collaborator `DGEMM`
(declared in src/include/util.h line 33; the routine itself is an external
library).  Column-major general matrix multiply
`C := alpha * op(A) * op(B) + beta * C` where `op` transposes when the
corresponding flag is `'T'`.  Entries outside the written `m × n` block keep
the prior contents of `C`. -/
noncomputable def DGEMM (transa transb : Char) (m n k : ℕ) (alpha : ℝ)
    (A : ℕ → ℝ) (lda : ℕ) (B : ℕ → ℝ) (ldb : ℕ) (beta : ℝ)
    (C : ℕ → ℝ) (ldc : ℕ) : ℕ → ℝ :=
  fun idx =>
    if idx % ldc < m ∧ idx / ldc < n then
      alpha * (∑ l ∈ Finset.range k,
          (if transa = 'T' then A (l + (idx % ldc) * lda) else A ((idx % ldc) + l * lda)) *
          (if transb = 'T' then B ((idx / ldc) + l * ldb) else B (l + (idx / ldc) * ldb)))
        + beta * C idx
    else C idx

/-- Embedding of `matmul` (src/util.c lines 25-34): delegates to `DGEMM` with
`TRANSA='T'`, `TRANSB='N'`, `ALPHA=1`, `BETA=0`, `LDA=K`, `LDB=K`, `LDC=M`.
The output buffer is uninitialized in C; since `BETA=0` its contents are
irrelevant and are modelled as the zero function. -/
noncomputable def matmul (M N K : ℕ) (A B : ℕ → ℝ) : ℕ → ℝ :=
  DGEMM 'T' 'N' M N K 1 A K B K 0 (fun _ => 0) M

/-! ### Embedding of rand_normal (src/util.c lines 62-84)

`rand_normal` keeps Marsaglia-polar state in C statics `V1, V2, S, phase`.
The drand48 stream is modelled as a function `ℕ → ℚ` together with a cursor
`pos` recording how many draws have been consumed; the rejection loop gets
explicit fuel and the whole call returns `none` when the fuel runs out. -/

/-- The static state of `rand_normal`: the drand48 cursor plus the C statics
`phase`, `V1`, `V2`, `S` (all zero-initialized). -/
structure RandState where
  pos : ℕ
  phase : ℕ
  V1 : ℚ
  V2 : ℚ
  S : ℚ
deriving DecidableEq

/-- Zero-initialized statics, stream at its start. -/
def initRandState : RandState := ⟨0, 0, 0, 0, 0⟩

/-- The value `S = V1*V1 + V2*V2` computed from the uniform pair drawn at
stream positions `p`, `p+1`  (`V1 = 2*U1 - 1`, `V2 = 2*U2 - 1`). -/
def pairS (u : ℕ → ℚ) (p : ℕ) : ℚ :=
  (2 * u p - 1) * (2 * u p - 1) + (2 * u (p + 1) - 1) * (2 * u (p + 1) - 1)

/-- The rejection loop of `rand_normal`: starting at stream position `p`,
repeatedly draw a pair and retry (`while (S >= 1 || S == 0)`) until the pair
is acceptable, returning the position of the accepted pair. -/
def findGood (u : ℕ → ℚ) : ℕ → ℕ → Option ℕ
  | _, 0 => none
  | p, fuel + 1 => if 1 ≤ pairS u p ∨ pairS u p = 0 then findGood u (p + 2) fuel else some p

/-- Embedding of `rand_normal`: phase 0 runs the rejection loop, caches
`V1, V2, S` in the statics and returns `V1 * sqrt(-2 log S / S)`; phase 1
returns `V2 * sqrt(-2 log S / S)` from the cached statics without touching
the stream.  Each call toggles `phase = 1 - phase`. -/
noncomputable def rand_normal (u : ℕ → ℚ) (fuel : ℕ) (st : RandState) :
    Option (ℝ × RandState) :=
  if st.phase = 0 then
    match findGood u st.pos fuel with
    | none => none
    | some p =>
        some (((2 * u p - 1 : ℚ) : ℝ)
                * Real.sqrt (-2 * Real.log ((pairS u p : ℚ) : ℝ) / ((pairS u p : ℚ) : ℝ)),
              { pos := p + 2, phase := 1 - st.phase,
                V1 := 2 * u p - 1, V2 := 2 * u (p + 1) - 1, S := pairS u p })
  else
    some (((st.V2 : ℚ) : ℝ)
            * Real.sqrt (-2 * Real.log ((st.S : ℚ) : ℝ) / ((st.S : ℚ) : ℝ)),
          { st with phase := 1 - st.phase })

/-- A sequence of `n` successive `rand_normal` calls, collecting the returned
variates. -/
noncomputable def randNormalRun (u : ℕ → ℚ) (fuel : ℕ) :
    ℕ → RandState → Option (List ℝ × RandState)
  | 0, st => some ([], st)
  | n + 1, st =>
      (rand_normal u fuel st).bind fun r =>
        (randNormalRun u fuel n r.2).bind fun s => some (r.1 :: s.1, s.2)

/-! ### Claims about src/util.c -/

/-- Claim C7: for every pair of vectors and every `dim ≥ 0`, `compute_dist`
returns the Euclidean L2 distance, the square root of the sum of squared
coordinate differences; and on rational inputs it is the square root of the
exact squared distance `sq_dist_rat` used by the query-engine model to rank
candidates. -/
theorem compute_dist_euclidean (vec1 vec2 : ℕ → ℝ) (dim : ℕ) :
    compute_dist vec1 vec2 dim
      = Real.sqrt (∑ i ∈ Finset.range dim, (vec1 i - vec2 i) ^ 2) ∧
    ∀ (x y : ℕ → ℚ) (d : ℕ),
      compute_dist (fun i => (x i : ℝ)) (fun i => (y i : ℝ)) d
        = Real.sqrt ((sq_dist_rat x y d : ℚ) : ℝ) := by
  constructor
  · unfold compute_dist
    rw [sq_dist_acc_eq_sum]
    congr 1
    exact Finset.sum_congr rfl (fun i _ => by ring)
  · intro x y d
    unfold compute_dist
    rw [sq_dist_rat_cast]

/-- Claim C8: `matmul M N K A B` delegates to `DGEMM` with `transa='T'`,
`transb='N'`, `alpha=1`, `beta=0`, `LDA=LDB=K`, `LDC=M` (this is its
definition), and under the external DGEMM contract the written `M × N`
column-major result is the transpose-product `Aᵀ B`. -/
theorem matmul_transpose_product (M N K : ℕ) (A B : ℕ → ℝ) (i j : ℕ)
    (hi : i < M) (hj : j < N) :
    matmul M N K A B (i + j * M)
      = ∑ l ∈ Finset.range K, A (l + i * K) * B (l + j * K) := by
  have hM : 0 < M := lt_of_le_of_lt (Nat.zero_le i) hi
  have h1 : (i + j * M) % M = i := by
    rw [Nat.add_mul_mod_self_right, Nat.mod_eq_of_lt hi]
  have h2 : (i + j * M) / M = j := by
    rw [Nat.add_mul_div_right _ _ hM, Nat.div_eq_of_lt hi, Nat.zero_add]
  unfold matmul DGEMM
  rw [h1, h2, if_pos ⟨hi, hj⟩]
  simp

theorem matmul_transpose_product_witness :
    matmul 1 1 1 (fun _ => (1 : ℝ)) (fun _ => (1 : ℝ)) 0 = 1 := by
  simpa using
    matmul_transpose_product 1 1 1 (fun _ => (1 : ℝ)) (fun _ => (1 : ℝ)) 0 0
      (by norm_num) (by norm_num)

/-! ### Properties of the rand_normal state machine -/

theorem findGood_spec (u : ℕ → ℚ) :
    ∀ fuel p r, findGood u p fuel = some r →
      ¬(1 ≤ pairS u r ∨ pairS u r = 0) ∧
      ∃ m, r = p + 2 * m ∧
        ∀ i < m, (1 ≤ pairS u (p + 2 * i) ∨ pairS u (p + 2 * i) = 0) := by
  intro fuel
  induction fuel with
  | zero => intro p r h; exact absurd h (by simp [findGood])
  | succ fuel ih =>
      intro p r h
      unfold findGood at h
      by_cases hb : 1 ≤ pairS u p ∨ pairS u p = 0
      · rw [if_pos hb] at h
        obtain ⟨hg, m, hm, hall⟩ := ih (p + 2) r h
        refine ⟨hg, m + 1, by omega, ?_⟩
        intro i hi
        rcases Nat.eq_zero_or_pos i with h0 | hpos
        · subst h0; simpa using hb
        · obtain ⟨i', rfl⟩ := Nat.exists_eq_succ_of_ne_zero (Nat.pos_iff_ne_zero.mp hpos)
          have := hall i' (by omega)
          have harith : p + 2 + 2 * i' = p + 2 * (i' + 1) := by ring
          rwa [harith] at this
      · rw [if_neg hb] at h
        obtain ⟨rfl⟩ : r = p := by cases h; rfl
        exact ⟨hb, 0, by omega, by omega⟩

theorem rand_normal_pos_mono (u : ℕ → ℚ) (fuel : ℕ) (st : RandState)
    (x : ℝ) (st' : RandState) (h : rand_normal u fuel st = some (x, st')) :
    st.pos ≤ st'.pos := by
  unfold rand_normal at h
  by_cases hp : st.phase = 0
  · rw [if_pos hp] at h
    cases hf : findGood u st.pos fuel with
    | none => rw [hf] at h; cases h
    | some p =>
        rw [hf] at h
        obtain ⟨-, m, hm, -⟩ := findGood_spec u fuel st.pos p hf
        cases h
        simp only
        omega
  · rw [if_neg hp] at h
    cases h
    exact le_refl _

/-- Claim C9: `rand_normal` keeps its Marsaglia-polar state in the statics:
each successful call toggles `phase`; a phase-0 call runs the rejection loop
from the current stream position (rejecting every earlier candidate pair),
caches `V1`, `V2`, `S` and returns `V1*sqrt(-2*log(S)/S)`; the following
phase-1 call returns `V2*sqrt(-2*log(S)/S)` purely from the cached statics,
consuming no drand48 draws (`pos` unchanged). -/
theorem rand_normal_state_machine (u : ℕ → ℚ) (fuel : ℕ) (st : RandState)
    (x : ℝ) (st' : RandState) (h : rand_normal u fuel st = some (x, st')) :
    st'.phase = 1 - st.phase ∧
    (st.phase = 0 →
      ∃ p, findGood u st.pos fuel = some p ∧
        ¬(1 ≤ pairS u p ∨ pairS u p = 0) ∧
        (∃ m, p = st.pos + 2 * m ∧
          ∀ i < m, (1 ≤ pairS u (st.pos + 2 * i) ∨ pairS u (st.pos + 2 * i) = 0)) ∧
        x = ((2 * u p - 1 : ℚ) : ℝ)
              * Real.sqrt (-2 * Real.log ((pairS u p : ℚ) : ℝ) / ((pairS u p : ℚ) : ℝ)) ∧
        st' = ⟨p + 2, 1, 2 * u p - 1, 2 * u (p + 1) - 1, pairS u p⟩) ∧
    (st.phase ≠ 0 →
      x = ((st.V2 : ℚ) : ℝ)
            * Real.sqrt (-2 * Real.log ((st.S : ℚ) : ℝ) / ((st.S : ℚ) : ℝ)) ∧
      st' = { st with phase := 1 - st.phase } ∧ st'.pos = st.pos) := by
  unfold rand_normal at h
  by_cases hp : st.phase = 0
  · rw [if_pos hp] at h
    cases hf : findGood u st.pos fuel with
    | none => rw [hf] at h; cases h
    | some p =>
        rw [hf] at h
        obtain ⟨hg, m, hm, hall⟩ := findGood_spec u fuel st.pos p hf
        cases h
        refine ⟨rfl, ?_, ?_⟩
        · intro _
          exact ⟨p, rfl, hg, ⟨m, hm, hall⟩, rfl, by rw [hp]⟩
        · intro hne; exact absurd hp hne
  · rw [if_neg hp] at h
    cases h
    exact ⟨rfl, fun h0 => absurd h0 hp, fun _ => ⟨rfl, rfl, rfl⟩⟩

def wStream : ℕ → ℚ := fun _ => 1 / 4

noncomputable def wVal : ℝ :=
  ((2 * wStream 0 - 1 : ℚ) : ℝ)
    * Real.sqrt (-2 * Real.log ((pairS wStream 0 : ℚ) : ℝ) / ((pairS wStream 0 : ℚ) : ℝ))

def wState : RandState := ⟨2, 1, 2 * wStream 0 - 1, 2 * wStream 1 - 1, pairS wStream 0⟩

theorem wStream_pairS : pairS wStream 0 = 1 / 2 := by
  norm_num [pairS, wStream]

theorem wStream_good : ¬(1 ≤ pairS wStream 0 ∨ pairS wStream 0 = 0) := by
  rw [wStream_pairS]
  norm_num

theorem rand_normal_at_wStream :
    rand_normal wStream 1 initRandState = some (wVal, wState) := by
  have hfg : findGood wStream 0 1 = some 0 := by
    unfold findGood
    rw [if_neg wStream_good]
  unfold rand_normal
  have h0 : initRandState.phase = 0 := rfl
  rw [if_pos h0]
  have hpos : initRandState.pos = 0 := rfl
  rw [hpos, hfg]
  rfl

theorem rand_normal_state_machine_witness :
    wState.phase = 1 - initRandState.phase ∧ wState.pos = 2 ∧ wState.S = 1 / 2 :=
  ⟨(rand_normal_state_machine wStream 1 initRandState wVal wState
      rand_normal_at_wStream).1,
   rfl, wStream_pairS⟩

/-- The safety invariant on the statics: whenever `phase ≠ 0`, the cached `S`
came from an accepted rejection-loop pair, so `0 < S < 1`. -/
def randInv (st : RandState) : Prop := st.phase ≠ 0 → 0 < st.S ∧ st.S < 1

theorem pairS_good_bounds (u : ℕ → ℚ) (p : ℕ)
    (h : ¬(1 ≤ pairS u p ∨ pairS u p = 0)) : 0 < pairS u p ∧ pairS u p < 1 := by
  push_neg at h
  obtain ⟨h1, h2⟩ := h
  have hnn : 0 ≤ pairS u p := by
    unfold pairS
    nlinarith [mul_self_nonneg (2 * u p - 1), mul_self_nonneg (2 * u (p + 1) - 1)]
  exact ⟨lt_of_le_of_ne hnn (Ne.symm h2), h1⟩

theorem sqrt_arg_pos {S : ℚ} (h0 : 0 < S) (h1 : S < 1) :
    0 < -2 * Real.log ((S : ℚ) : ℝ) / ((S : ℚ) : ℝ) := by
  have hS0 : (0 : ℝ) < (S : ℝ) := by exact_mod_cast h0
  have hS1 : ((S : ℚ) : ℝ) < 1 := by exact_mod_cast h1
  have hlog : Real.log ((S : ℚ) : ℝ) < 0 := Real.log_neg hS0 hS1
  apply div_pos _ hS0
  nlinarith

theorem rand_normal_preserves_inv (u : ℕ → ℚ) (fuel : ℕ) (st : RandState)
    (x : ℝ) (st' : RandState)
    (h : rand_normal u fuel st = some (x, st')) : randInv st' := by
  unfold rand_normal at h
  by_cases hp : st.phase = 0
  · rw [if_pos hp] at h
    cases hf : findGood u st.pos fuel with
    | none => rw [hf] at h; cases h
    | some p =>
        rw [hf] at h
        obtain ⟨hg, -⟩ := findGood_spec u fuel st.pos p hf
        cases h
        intro _
        exact pairS_good_bounds u p hg
  · rw [if_neg hp] at h
    cases h
    intro hne
    exfalso
    apply hne
    simp only
    omega

theorem randNormalRun_inv (u : ℕ → ℚ) (fuel : ℕ) :
    ∀ (n : ℕ) (st : RandState) (xs : List ℝ) (stf : RandState),
      randInv st → randNormalRun u fuel n st = some (xs, stf) → randInv stf := by
  intro n
  induction n with
  | zero =>
      intro st xs stf hInv h
      unfold randNormalRun at h
      cases h
      exact hInv
  | succ n ih =>
      intro st xs stf hInv h
      unfold randNormalRun at h
      rw [Option.bind_eq_some] at h
      obtain ⟨⟨x, st'⟩, hr, h2⟩ := h
      rw [Option.bind_eq_some] at h2
      obtain ⟨⟨xs', stf'⟩, hrun, heq⟩ := h2
      cases heq
      exact ih st' xs' stf' (rand_normal_preserves_inv u fuel st x st' hr) hrun

/-- Claim C10: starting from the zero-initialized statics (phase 0), along
every sequence of `rand_normal` calls the cached `S` used under the square
root satisfies `0 < S < 1` — enforced by the rejection loop — so the argument
`-2*log(S)/S` of `sqrt` is strictly positive and the division is never by
zero.  The `S` used by a phase-0 call is the freshly accepted `st'.S`; a
phase-1 call reuses the cached `st.S`. -/
theorem rand_normal_sqrt_arg_safe (u : ℕ → ℚ) (fuel : ℕ) (st : RandState)
    (x : ℝ) (st' : RandState) (hInv : randInv st)
    (h : rand_normal u fuel st = some (x, st')) :
    randInv initRandState ∧
    randInv st' ∧
    (0 < (if st.phase = 0 then st'.S else st.S) ∧
     (if st.phase = 0 then st'.S else st.S) < 1 ∧
     (if st.phase = 0 then st'.S else st.S) ≠ 0 ∧
     0 < -2 * Real.log (((if st.phase = 0 then st'.S else st.S) : ℚ) : ℝ)
           / (((if st.phase = 0 then st'.S else st.S) : ℚ) : ℝ)) ∧
    (∀ (n : ℕ) (xs : List ℝ) (stf : RandState),
      randNormalRun u fuel n initRandState = some (xs, stf) → randInv stf) := by
  refine ⟨fun hne => absurd rfl hne, rand_normal_preserves_inv u fuel st x st' h, ?_,
    fun n xs stf hrun =>
      randNormalRun_inv u fuel n initRandState xs stf (fun hne => absurd rfl hne) hrun⟩
  have hBounds : 0 < (if st.phase = 0 then st'.S else st.S) ∧
      (if st.phase = 0 then st'.S else st.S) < 1 := by
    by_cases hp : st.phase = 0
    · rw [if_pos hp]
      unfold rand_normal at h
      rw [if_pos hp] at h
      cases hf : findGood u st.pos fuel with
      | none => rw [hf] at h; cases h
      | some p =>
          rw [hf] at h
          obtain ⟨hg, -⟩ := findGood_spec u fuel st.pos p hf
          cases h
          exact pairS_good_bounds u p hg
    · rw [if_neg hp]
      exact hInv hp
  obtain ⟨hb0, hb1⟩ := hBounds
  exact ⟨hb0, hb1, ne_of_gt hb0, sqrt_arg_pos hb0 hb1⟩

theorem rand_normal_sqrt_arg_safe_witness :
    0 < (if initRandState.phase = 0 then wState.S else initRandState.S) ∧
    randInv wState :=
  ⟨(rand_normal_sqrt_arg_safe wStream 1 initRandState wVal wState
      (fun hne => absurd rfl hne) rand_normal_at_wStream).2.2.1.1,
   (rand_normal_sqrt_arg_safe wStream 1 initRandState wVal wState
      (fun hne => absurd rfl hne) rand_normal_at_wStream).2.1⟩

/-! ### Determinism of the random-stream consumption -/

theorem pairS_agree (u v : ℕ → ℚ) (p q : ℕ) (hq : p ≤ q)
    (hagree : ∀ i, p ≤ i → u i = v i) : pairS u q = pairS v q := by
  unfold pairS
  rw [hagree q hq, hagree (q + 1) (by omega)]

theorem findGood_agree (u v : ℕ → ℚ) (p : ℕ) (hagree : ∀ i, p ≤ i → u i = v i) :
    ∀ fuel q, p ≤ q → findGood u q fuel = findGood v q fuel := by
  intro fuel
  induction fuel with
  | zero => intro q _; rfl
  | succ fuel ih =>
      intro q hq
      unfold findGood
      rw [pairS_agree u v p q hq hagree]
      by_cases hb : 1 ≤ pairS v q ∨ pairS v q = 0
      · rw [if_pos hb, if_pos hb]
        exact ih (q + 2) (by omega)
      · rw [if_neg hb, if_neg hb]

theorem rand_normal_agree (u v : ℕ → ℚ) (fuel : ℕ) (st : RandState)
    (hagree : ∀ i, st.pos ≤ i → u i = v i) :
    rand_normal u fuel st = rand_normal v fuel st := by
  unfold rand_normal
  by_cases hp : st.phase = 0
  · rw [if_pos hp, if_pos hp,
      findGood_agree u v st.pos hagree fuel st.pos (le_refl _)]
    cases hf : findGood v st.pos fuel with
    | none => rfl
    | some p =>
        obtain ⟨-, m, hm, -⟩ := findGood_spec v fuel st.pos p hf
        have hple : st.pos ≤ p := by omega
        dsimp only
        rw [pairS_agree u v st.pos p hple hagree, hagree p hple,
          hagree (p + 1) (by omega)]
  · rw [if_neg hp, if_neg hp]

/-- Claim C5: for a fixed drand48 stream, the sequence of variates produced by
successive `rand_normal` calls — and hence everything derived from them — is a
function of the stream and the starting statics alone: two streams that agree
from the current cursor onward produce identical run results (values and final
statics). -/
theorem randNormalRun_deterministic (u v : ℕ → ℚ) (fuel : ℕ) :
    ∀ (n : ℕ) (st : RandState), (∀ i, st.pos ≤ i → u i = v i) →
      randNormalRun u fuel n st = randNormalRun v fuel n st := by
  intro n
  induction n with
  | zero => intro st _; rfl
  | succ n ih =>
      intro st hagree
      unfold randNormalRun
      rw [rand_normal_agree u v fuel st hagree]
      cases hr : rand_normal v fuel st with
      | none => rfl
      | some r =>
          obtain ⟨x, st'⟩ := r
          simp only [Option.some_bind]
          have hpos : st.pos ≤ st'.pos := rand_normal_pos_mono v fuel st x st' hr
          rw [ih st' (fun i hi => hagree i (le_trans hpos hi))]

def wU : ℕ → ℚ := fun i => if i = 0 then 0 else 1 / 4

def wV : ℕ → ℚ := fun i => if i = 0 then 1 / 3 else 1 / 4

def wSt : RandState := ⟨1, 0, 0, 0, 0⟩

theorem randNormalRun_deterministic_witness :
    randNormalRun wU 1 1 wSt = randNormalRun wV 1 1 wSt :=
  randNormalRun_deterministic wU wV 1 1 wSt (by
    intro i hi
    have h1 : (1 : ℕ) ≤ i := hi
    have hne : i ≠ 0 := by omega
    simp [wU, wV, hne])

/-! ### Data model from src/include/dci.h

The position-file entry and query-configuration types are transcribed from
the header.  C doubles become `ℚ` (exact), C ints become `ℤ` where negative
sentinel values matter and `ℕ` for sizes and identifiers. -/

/-- `idx_elem` (dci.h lines 28-32): one position-file entry — a projected
coordinate and the point's local/global identifiers. -/
structure idx_elem where
  key : ℚ
  local_value : ℕ
  global_value : ℕ
deriving DecidableEq, Inhabited

/-- `dci_query_config` (dci.h lines 56-65). -/
structure dci_query_config where
  blind : Bool
  num_to_visit : ℤ
  num_to_retrieve : ℤ
  prop_to_visit : ℚ
  prop_to_retrieve : ℚ
  field_of_view : ℤ
  min_num_finest_level_points : ℤ
deriving DecidableEq

/-- Modelled from the spec: the effective termination cap of one axis
(spec §4.2 and §6; dci.h line 58).  An absolute cap is active when `≥ 0`, a
fractional cap when `> 0`; the effective cap is the maximum of the active
forms, and `none` when neither form is active. -/
def effCap (num : ℤ) (pr : ℚ) (N : ℕ) : Option ℚ :=
  if 0 ≤ num then
    (if 0 < pr then some (max (num : ℚ) (pr * N)) else some (num : ℚ))
  else
    (if 0 < pr then some (pr * N) else none)

/-! ### Spec-modelled query engine (single level)

The query engine lives in dci.c, which is not among the provided sources
(only its declarations in dci.h are).  The engine below is modelled from the
specification §4.2: per-composite priority-driven traversal with two
iterators per simple index, promotion when all `L_s` simple indices of a
composite have witnessed a point, round-robin service across composites,
visit counter counting priority-queue pops, retrieve counter counting
distinct promoted points, a bounded max-heap of size k in non-blind mode and
a promotion-order output list in blind mode. -/

/-- One pending iterator step: simple index `sj` within the composite,
direction of advance (`up` = toward larger keys), current position in the
position file. -/
structure Cursor where
  sj : ℕ
  up : Bool
  pos : ℕ
deriving DecidableEq

/-- Modelled from the spec: per-composite query state — the priority queue of
iterator steps, the per-point witness counters, and the promotion list of
this composite (spec §4.2). -/
structure CompState where
  queue : List Cursor
  counter : ℕ → ℕ
  promoted : List ℕ

instance : Inhabited CompState := ⟨⟨[], fun _ => 0, []⟩⟩

/-- Modelled from the spec: the populated single-level index together with
one query — dimensions, the borrowed raw data, the query point, the
position files (one per composite per simple index), the query's projected
coordinates, the configuration and `k` (`num_neighbours`). -/
structure QEnv where
  numPoints : ℕ
  numComp : ℕ
  numSimp : ℕ
  dim : ℕ
  data : ℕ → ℕ → ℚ
  query : ℕ → ℚ
  files : ℕ → ℕ → List idx_elem
  qproj : ℕ → ℕ → ℚ
  cfg : dci_query_config
  num_neighbours : ℕ

/-- Exact squared Euclidean distance from the query to point `p`, computed
with the `compute_dist` accumulation loop on the raw data. -/
def sqdistE (env : QEnv) (p : ℕ) : ℚ := sq_dist_rat (env.data p) env.query env.dim

/-- Effective visit cap of the query (max of the active forms). -/
def effVisit (env : QEnv) : Option ℚ :=
  effCap env.cfg.num_to_visit env.cfg.prop_to_visit env.numPoints

/-- Effective retrieve cap of the query (max of the active forms). -/
def effRetrieve (env : QEnv) : Option ℚ :=
  effCap env.cfg.num_to_retrieve env.cfg.prop_to_retrieve env.numPoints

/-- The position-file entry a cursor points at. -/
def entryAt (env : QEnv) (c : ℕ) (cur : Cursor) : idx_elem :=
  (env.files c cur.sj).getD cur.pos default

/-- The gap of a pending step: distance from its key to the query projection
along its simple index (spec §4.2). -/
def cursorGap (env : QEnv) (c : ℕ) (cur : Cursor) : ℚ :=
  |(entryAt env c cur).key - env.qproj c cur.sj|

/-- Modelled from the spec: deterministic priority order on pending steps —
smaller gap first, ties by simple-index id, then direction with
toward-larger-keys first (spec §4.2, tie-breaking). -/
def cursorLE (env : QEnv) (c : ℕ) (a b : Cursor) : Bool :=
  decide (cursorGap env c a < cursorGap env c b) ||
    (decide (cursorGap env c a = cursorGap env c b) &&
      (decide (a.sj < b.sj) || (decide (a.sj = b.sj) && (a.up || !b.up))))

/-- Pop the highest-priority pending step from the queue. -/
def pickMin (env : QEnv) (c : ℕ) : List Cursor → Option (Cursor × List Cursor)
  | [] => none
  | x :: xs =>
      match pickMin env c xs with
      | none => some (x, [])
      | some (b, rest) => if cursorLE env c x b then some (x, xs) else some (b, x :: rest)

/-- Advance an iterator one step in its direction, or retire it at the end of
the position file (spec §4.2 step 4). -/
def advanceCursor (len : ℕ) (cur : Cursor) : Option Cursor :=
  if cur.up then (if cur.pos + 1 < len then some { cur with pos := cur.pos + 1 } else none)
  else (if cur.pos = 0 then none else some { cur with pos := cur.pos - 1 })

/-- Modelled from the spec: one pop of one composite — take the smallest-gap
step, bump the witness counter of the named point, promote it when the
counter reaches `L_s`, advance the iterator and re-queue it if still in
range (spec §4.2 steps 2-4).  Returns the popped point and the new state,
or `none` when the queue is exhausted. -/
def compStep (env : QEnv) (c : ℕ) (cs : CompState) : Option (ℕ × CompState) :=
  match pickMin env c cs.queue with
  | none => none
  | some (best, rest) =>
      let p := (entryAt env c best).global_value
      let cnt := cs.counter p + 1
      some (p,
        { queue := match advanceCursor (env.files c best.sj).length best with
                   | none => rest
                   | some cur => cur :: rest,
          counter := Function.update cs.counter p cnt,
          promoted := if cnt = env.numSimp then cs.promoted ++ [p] else cs.promoted })

/-- Modelled from the spec: the whole-query state — per-composite states, the
round-robin pointer, the visit counter (pops), the promotion-order list of
distinct promoted points (its length is the retrieve counter), the bounded
max-heap and the count of true-distance computations. -/
structure QState where
  comps : List CompState
  turn : ℕ
  visited : ℕ
  promOrder : List ℕ
  heap : List (ℚ × ℕ)
  nDist : ℕ

/-- Round-robin service: the first composite with pending work, scanning from
the current turn (spec §4.2, round-robin across composites). -/
def findServe (env : QEnv) (st : QState) : Option ℕ :=
  ((List.range env.numComp).map (fun i => (st.turn + i) % env.numComp)).find?
    (fun c => !(st.comps.getD c default).queue.isEmpty)

/-- The worst (largest-distance) entry of the bounded heap. -/
def worstEntry : List (ℚ × ℕ) → Option (ℚ × ℕ)
  | [] => none
  | x :: xs =>
      match worstEntry xs with
      | none => some x
      | some m => if m.1 ≤ x.1 then some x else some m

/-- Modelled from the spec: insertion into the bounded max-heap of size `k`;
when full, a new candidate replaces the worst kept entry only if strictly
closer (spec §4.2, candidate evaluation). -/
def heapInsert (k : ℕ) (e : ℚ × ℕ) (hp : List (ℚ × ℕ)) : List (ℚ × ℕ) :=
  if hp.length < k then e :: hp
  else
    match worstEntry hp with
    | none => hp
    | some m => if e.1 < m.1 then e :: hp.erase m else hp

/-- Modelled from the spec: one global engine step — serve the next composite
in round-robin order, pop once, count the pop as a visit, and on a first
promotion record the point (and, unless blind, compute its true distance and
offer it to the bounded heap) (spec §4.2). -/
def stepQ (env : QEnv) (st : QState) : QState :=
  match findServe env st with
  | none => { st with turn := st.turn + 1 }
  | some c =>
      match compStep env c (st.comps.getD c default) with
      | none => { st with turn := st.turn + 1 }
      | some (p, cs') =>
          { comps := st.comps.set c cs',
            turn := st.turn + 1,
            visited := st.visited + 1,
            promOrder :=
              if cs'.counter p = env.numSimp ∧ p ∉ st.promOrder then st.promOrder ++ [p]
              else st.promOrder,
            heap :=
              if cs'.counter p = env.numSimp ∧ p ∉ st.promOrder ∧ env.cfg.blind = false then
                heapInsert env.num_neighbours (sqdistE env p, p) st.heap
              else st.heap,
            nDist :=
              if cs'.counter p = env.numSimp ∧ p ∉ st.promOrder ∧ env.cfg.blind = false then
                st.nDist + 1
              else st.nDist }

/-- Has the given termination axis reached its effective cap? -/
def capHitB : Option ℚ → ℕ → Bool
  | none, _ => false
  | some x, n => decide (x ≤ (n : ℚ))

/-- All composites out of pending work. -/
def allEmptyB (st : QState) : Bool := st.comps.all fun cs => cs.queue.isEmpty

/-- Modelled from the spec: the query stops as soon as either axis reaches
its effective cap — visit axis against the pop counter, retrieve axis
against the number of distinct promoted points — or when all composites are
exhausted (spec §4.2, termination). -/
def stoppedB (env : QEnv) (st : QState) : Bool :=
  capHitB (effVisit env) st.visited || capHitB (effRetrieve env) st.promOrder.length ||
    allEmptyB st

/-- The engine loop: step until stopped (or out of fuel). -/
def runAux (env : QEnv) : ℕ → QState → QState
  | 0, st => st
  | n + 1, st => if stoppedB env st then st else runAux env n (stepQ env st)

/-- Binary-search insertion point of the query projection in a sorted
position file: the number of keys strictly below it. -/
def insertPoint (file : List idx_elem) (q : ℚ) : ℕ :=
  file.countP fun e => decide (e.key < q)

/-- The initial pending steps of one simple index: an upward iterator at the
insertion point and a downward iterator just below it, each present only
when in range (spec §4.2 step 1). -/
def seedFor (file : List idx_elem) (q : ℚ) (j : ℕ) : List Cursor :=
  (if insertPoint file q < file.length then [⟨j, true, insertPoint file q⟩] else []) ++
    (if 0 < insertPoint file q then [⟨j, false, insertPoint file q - 1⟩] else [])

/-- The seeded priority queue of one composite: two iterators per simple
index. -/
def seedQueue (env : QEnv) (c : ℕ) : List Cursor :=
  (List.range env.numSimp).foldr
    (fun j acc => seedFor (env.files c j) (env.qproj c j) j ++ acc) []

/-- Initial per-composite state. -/
def initComp (env : QEnv) (c : ℕ) : CompState := ⟨seedQueue env c, fun _ => 0, []⟩

/-- Initial whole-query state. -/
def initQState (env : QEnv) : QState :=
  ⟨(List.range env.numComp).map (initComp env), 0, 0, [], [], 0⟩

/-- Entries a cursor can still pop: everything from its position to the end
of the file in its direction. -/
def rangeSize (len : ℕ) (cur : Cursor) : ℕ := if cur.up then len - cur.pos else cur.pos + 1

/-- Pending-work measure of one queue. -/
def qMeasure (env : QEnv) (c : ℕ) (q : List Cursor) : ℕ :=
  (q.map fun cur => rangeSize (env.files c cur.sj).length cur).sum

/-- Pending-work measure of the whole state; strictly decreases per step. -/
def stMeasure (env : QEnv) (st : QState) : ℕ :=
  ∑ c ∈ Finset.range env.numComp, qMeasure env c ((st.comps.getD c default).queue)

/-- Fuel sufficient to run the engine to its stopping condition. -/
def runFuel (env : QEnv) : ℕ := stMeasure env (initQState env)

/-- The final engine state of the query. -/
def runQ (env : QEnv) : QState := runAux env (runFuel env) (initQState env)

/-- Ordering of heap entries by (squared) distance. -/
def distLE (a b : ℚ × ℕ) : Prop := a.1 ≤ b.1

instance : DecidableRel distLE := fun a b => inferInstanceAs (Decidable (a.1 ≤ b.1))

instance : IsTotal (ℚ × ℕ) distLE := ⟨fun a b => le_total a.1 b.1⟩

instance : IsTrans (ℚ × ℕ) distLE := ⟨fun _ _ _ h1 h2 => le_trans h1 h2⟩

/-- Modelled from the spec: the output of one query (dci.h line 73 gives the
interface; semantics from spec §4.2).  Blind mode returns the promotion-order
list; non-blind mode returns the heap sorted ascending by distance.  The
third component is the per-query `num_returned`.  Distances are kept squared
(exact); `dci_query` below takes the square root. -/
def dci_query_core (env : QEnv) : List ℕ × List ℚ × ℕ :=
  if env.cfg.blind then ((runQ env).promOrder, [], (runQ env).promOrder.length)
  else
    (((runQ env).heap.insertionSort distLE).map Prod.snd,
     ((runQ env).heap.insertionSort distLE).map Prod.fst,
     ((runQ env).heap.insertionSort distLE).length)

/-- The caller-visible result of `dci_query` for one query. -/
structure QueryResult where
  ids : List ℕ
  dists : List ℝ
  num_returned : ℕ

/-- Modelled from the spec: `dci_query` (dci.h lines 72-73) for a single
query on a single-level index: the engine output with true Euclidean
distances. -/
noncomputable def dci_query (env : QEnv) : QueryResult :=
  { ids := (dci_query_core env).1,
    dists := (dci_query_core env).2.1.map (fun q => Real.sqrt ((q : ℚ) : ℝ)),
    num_returned := (dci_query_core env).2.2 }

/-! ### Generic list helpers -/

theorem getD_set_self {α : Type*} [Inhabited α] (l : List α) (i : ℕ) (x : α)
    (h : i < l.length) : (l.set i x).getD i default = x := by
  simp [List.getD_eq_getElem?_getD, List.getElem?_set_self h]

theorem getD_set_other {α : Type*} [Inhabited α] (l : List α) (i j : ℕ) (x : α)
    (h : i ≠ j) : (l.set i x).getD j default = l.getD j default := by
  simp [List.getD_eq_getElem?_getD, List.getElem?_set_ne h]

theorem getD_range_map {α : Type*} [Inhabited α] (f : ℕ → α) (n c : ℕ) (h : c < n) :
    ((List.range n).map f).getD c default = f c := by
  have hlen : c < ((List.range n).map f).length := by simpa using h
  rw [List.getD_eq_getElem?_getD, List.getElem?_eq_getElem hlen]
  simp

theorem sum_range_replace (f g : ℕ → ℕ) (n c : ℕ) (hc : c < n)
    (hother : ∀ i, i < n → i ≠ c → f i = g i) :
    (∑ i ∈ Finset.range n, f i) + g c = (∑ i ∈ Finset.range n, g i) + f c := by
  induction n with
  | zero => omega
  | succ n ih =>
      rw [Finset.sum_range_succ, Finset.sum_range_succ]
      by_cases hcn : c = n
      · subst hcn
        have hsame : ∑ i ∈ Finset.range c, f i = ∑ i ∈ Finset.range c, g i :=
          Finset.sum_congr rfl fun i hi =>
            hother i (by simpa using Nat.lt_succ_of_lt (Finset.mem_range.mp hi))
              (by have := Finset.mem_range.mp hi; omega)
        rw [hsame]; omega
      · have hc' : c < n := by omega
        have hfn : f n = g n := hother n (by omega) (by omega)
        have := ih hc' fun i hi hne => hother i (by omega) hne
        rw [hfn]; omega

theorem mem_foldr_append {β : Type*} (l : List ℕ) (g : ℕ → List β) (x : β) :
    x ∈ l.foldr (fun j acc => g j ++ acc) [] ↔ ∃ j ∈ l, x ∈ g j := by
  induction l with
  | nil => simp
  | cons a l ih => simp [ih]

/-! ### Basic facts about the engine's priority queue -/

theorem pickMin_none_iff (env : QEnv) (c : ℕ) (q : List Cursor) :
    pickMin env c q = none ↔ q = [] := by
  cases q with
  | nil => simp [pickMin]
  | cons x xs =>
      simp only [pickMin]
      constructor
      · intro h
        cases hxs : pickMin env c xs with
        | none => rw [hxs] at h; cases h
        | some r => rw [hxs] at h; obtain ⟨b, rest⟩ := r; by_cases hle : cursorLE env c x b <;>
            simp [hle] at h
      · intro h; cases h

theorem pickMin_perm (env : QEnv) (c : ℕ) :
    ∀ (q : List Cursor) (b : Cursor) (rest : List Cursor),
      pickMin env c q = some (b, rest) → q.Perm (b :: rest) := by
  intro q
  induction q with
  | nil => intro b rest h; cases h
  | cons x xs ih =>
      intro b rest h
      simp only [pickMin] at h
      cases hxs : pickMin env c xs with
      | none =>
          rw [hxs] at h
          have hnil : xs = [] := (pickMin_none_iff env c xs).mp hxs
          cases h
          rw [hnil]
      | some r =>
          rw [hxs] at h
          obtain ⟨b', rest'⟩ := r
          have hperm : xs.Perm (b' :: rest') := ih b' rest' hxs
          dsimp only at h
          by_cases hle : cursorLE env c x b'
          · rw [if_pos hle] at h
            cases h
            exact List.Perm.refl _
          · rw [if_neg hle] at h
            cases h
            exact List.Perm.trans (hperm.cons x) (List.Perm.swap _ _ _)

theorem pickMin_mem (env : QEnv) (c : ℕ) (q : List Cursor) (b : Cursor)
    (rest : List Cursor) (h : pickMin env c q = some (b, rest)) : b ∈ q :=
  (pickMin_perm env c q b rest h).mem_iff.mpr (List.mem_cons_self b rest)

/-! ### Well-formedness of cursors and the decreasing measure -/

/-- A cursor is well-formed when its simple index exists and its position is
inside the position file. -/
def wfCursor (env : QEnv) (c : ℕ) (cur : Cursor) : Prop :=
  cur.sj < env.numSimp ∧ cur.pos < (env.files c cur.sj).length

/-- All queued cursors of a composite are well-formed. -/
def wfComp (env : QEnv) (c : ℕ) (cs : CompState) : Prop :=
  ∀ cur ∈ cs.queue, wfCursor env c cur

/-- Structural well-formedness of the whole engine state. -/
def wfState (env : QEnv) (st : QState) : Prop :=
  st.comps.length = env.numComp ∧
    ∀ c < env.numComp, wfComp env c (st.comps.getD c default)

theorem rangeSize_pos (len : ℕ) (cur : Cursor) (h : cur.pos < len) :
    1 ≤ rangeSize len cur := by
  unfold rangeSize
  by_cases hup : cur.up <;> simp [hup] <;> omega

theorem advanceCursor_some (len : ℕ) (cur cur' : Cursor) (hwf : cur.pos < len)
    (h : advanceCursor len cur = some cur') :
    cur'.sj = cur.sj ∧ cur'.up = cur.up ∧ cur'.pos < len ∧
      rangeSize len cur' + 1 = rangeSize len cur := by
  unfold advanceCursor at h
  by_cases hup : cur.up
  · rw [if_pos hup] at h
    by_cases hlt : cur.pos + 1 < len
    · rw [if_pos hlt] at h
      cases h
      refine ⟨rfl, rfl, by simpa using hlt, ?_⟩
      simp only [rangeSize, hup, if_pos]
      omega
    · rw [if_neg hlt] at h; cases h
  · rw [if_neg hup] at h
    by_cases h0 : cur.pos = 0
    · rw [if_pos h0] at h; cases h
    · rw [if_neg h0] at h
      cases h
      refine ⟨rfl, rfl, by simp; omega, ?_⟩
      simp only [rangeSize, hup, if_neg]
      simp only [Bool.not_eq_true] at hup
      simp [hup]
      omega

theorem advanceCursor_none (len : ℕ) (cur : Cursor) (hwf : cur.pos < len)
    (h : advanceCursor len cur = none) : rangeSize len cur = 1 := by
  unfold advanceCursor at h
  by_cases hup : cur.up
  · rw [if_pos hup] at h
    by_cases hlt : cur.pos + 1 < len
    · rw [if_pos hlt] at h; cases h
    · simp only [rangeSize, hup, if_pos]
      omega
  · rw [if_neg hup] at h
    by_cases h0 : cur.pos = 0
    · simp only [Bool.not_eq_true] at hup
      simp [rangeSize, hup, h0]
    · rw [if_neg h0] at h; cases h

theorem qMeasure_perm (env : QEnv) (c : ℕ) (q q' : List Cursor) (h : q.Perm q') :
    qMeasure env c q = qMeasure env c q' :=
  List.Perm.sum_eq (h.map _)

theorem qMeasure_cons (env : QEnv) (c : ℕ) (cur : Cursor) (q : List Cursor) :
    qMeasure env c (cur :: q)
      = rangeSize (env.files c cur.sj).length cur + qMeasure env c q := by
  simp [qMeasure]

theorem getD_eq_getElem' {α : Type*} [Inhabited α] (l : List α) (i : ℕ)
    (h : i < l.length) : l.getD i default = l[i] := by
  rw [List.getD_eq_getElem?_getD, List.getElem?_eq_getElem h]
  rfl

/-! ### compStep: destructuring, well-formedness, measure -/

theorem compStep_cases (env : QEnv) (c : ℕ) (cs : CompState) (p : ℕ) (cs' : CompState)
    (h : compStep env c cs = some (p, cs')) :
    ∃ best rest,
      pickMin env c cs.queue = some (best, rest) ∧
      p = (entryAt env c best).global_value ∧
      cs'.counter = Function.update cs.counter p (cs.counter p + 1) ∧
      cs'.promoted
        = (if cs.counter p + 1 = env.numSimp then cs.promoted ++ [p] else cs.promoted) ∧
      ((advanceCursor (env.files c best.sj).length best = none ∧ cs'.queue = rest) ∨
       (∃ cur', advanceCursor (env.files c best.sj).length best = some cur' ∧
          cs'.queue = cur' :: rest)) := by
  unfold compStep at h
  cases hpm : pickMin env c cs.queue with
  | none => rw [hpm] at h; cases h
  | some r =>
      rw [hpm] at h
      obtain ⟨best, rest⟩ := r
      dsimp only at h
      cases hadv : advanceCursor (env.files c best.sj).length best with
      | none =>
          rw [hadv] at h
          cases h
          exact ⟨best, rest, rfl, rfl, rfl, rfl, Or.inl ⟨hadv, rfl⟩⟩
      | some cur' =>
          rw [hadv] at h
          cases h
          exact ⟨best, rest, rfl, rfl, rfl, rfl, Or.inr ⟨cur', hadv, rfl⟩⟩

theorem compStep_isSome (env : QEnv) (c : ℕ) (cs : CompState) (hne : cs.queue ≠ []) :
    ∃ p cs', compStep env c cs = some (p, cs') := by
  unfold compStep
  cases hpm : pickMin env c cs.queue with
  | none => exact absurd ((pickMin_none_iff env c cs.queue).mp hpm) hne
  | some r =>
      obtain ⟨best, rest⟩ := r
      exact ⟨_, _, rfl⟩

theorem compStep_wf (env : QEnv) (c : ℕ) (cs : CompState) (p : ℕ) (cs' : CompState)
    (hwf : wfComp env c cs) (h : compStep env c cs = some (p, cs')) :
    wfComp env c cs' := by
  obtain ⟨best, rest, hpm, -, -, -, hq⟩ := compStep_cases env c cs p cs' h
  have hperm := pickMin_perm env c cs.queue best rest hpm
  have hrest : ∀ cur ∈ rest, wfCursor env c cur := fun cur hcur =>
    hwf cur (hperm.mem_iff.mpr (List.mem_cons_of_mem best hcur))
  have hbest : wfCursor env c best := hwf best (pickMin_mem env c cs.queue best rest hpm)
  rcases hq with ⟨-, hq⟩ | ⟨cur', hadv, hq⟩
  · intro cur hcur
    rw [hq] at hcur
    exact hrest cur hcur
  · intro cur hcur
    rw [hq] at hcur
    rcases List.mem_cons.mp hcur with rfl | hmem
    · obtain ⟨hsj, -, hpos, -⟩ := advanceCursor_some _ best cur hbest.2 hadv
      exact ⟨hsj ▸ hbest.1, hsj ▸ hpos⟩
    · exact hrest cur hmem

theorem compStep_measure (env : QEnv) (c : ℕ) (cs : CompState) (p : ℕ) (cs' : CompState)
    (hwf : wfComp env c cs) (h : compStep env c cs = some (p, cs')) :
    qMeasure env c cs'.queue + 1 = qMeasure env c cs.queue := by
  obtain ⟨best, rest, hpm, -, -, -, hq⟩ := compStep_cases env c cs p cs' h
  have hperm := pickMin_perm env c cs.queue best rest hpm
  have hbest : wfCursor env c best := hwf best (pickMin_mem env c cs.queue best rest hpm)
  have hsplit : qMeasure env c cs.queue
      = rangeSize (env.files c best.sj).length best + qMeasure env c rest := by
    rw [qMeasure_perm env c cs.queue (best :: rest) hperm, qMeasure_cons]
  rcases hq with ⟨hadv, hq⟩ | ⟨cur', hadv, hq⟩
  · have h1 := advanceCursor_none _ best hbest.2 hadv
    rw [hq, hsplit, h1]
    omega
  · obtain ⟨hsj, -, -, hrs⟩ := advanceCursor_some _ best cur' hbest.2 hadv
    rw [hq, hsplit, qMeasure_cons, hsj]
    omega

/-! ### findServe and the emptiness test -/

theorem allEmptyB_spec (st : QState) :
    allEmptyB st = true ↔ ∀ i < st.comps.length, (st.comps.getD i default).queue = [] := by
  unfold allEmptyB
  rw [List.all_eq_true]
  constructor
  · intro h i hi
    rw [getD_eq_getElem' _ _ hi]
    exact List.isEmpty_iff.mp (h _ (List.getElem_mem hi))
  · intro h x hx
    obtain ⟨i, hi, rfl⟩ := List.mem_iff_getElem.mp hx
    apply List.isEmpty_iff.mpr
    rw [← getD_eq_getElem' _ _ hi]
    exact h i hi

theorem findServe_some (env : QEnv) (st : QState) (c : ℕ)
    (h : findServe env st = some c) :
    c < env.numComp ∧ (st.comps.getD c default).queue ≠ [] := by
  unfold findServe at h
  have hp := List.find?_some h
  have hmem := List.mem_of_find?_eq_some h
  simp only [List.mem_map, List.mem_range] at hmem
  obtain ⟨i, hi, rfl⟩ := hmem
  refine ⟨Nat.mod_lt _ (by omega), ?_⟩
  simp only [Bool.not_eq_eq_eq_not, Bool.not_false] at hp
  intro hnil
  rw [hnil] at hp
  simp at hp

theorem findServe_none (env : QEnv) (st : QState) (h : findServe env st = none) :
    ∀ c < env.numComp, (st.comps.getD c default).queue = [] := by
  unfold findServe at h
  rw [List.find?_eq_none] at h
  intro c hc
  have hL : 0 < env.numComp := by omega
  have hr : st.turn % env.numComp < env.numComp := Nat.mod_lt _ hL
  set L := env.numComp with hLdef
  set r := st.turn % L with hrdef
  have hdm := Nat.div_add_mod st.turn L
  set i := if r ≤ c then c - r else c + L - r with hidef
  have hiL : i < L := by rw [hidef]; split <;> omega
  have hmod : (st.turn + i) % L = c := by
    have h1 : (st.turn + i) % L = (r + i) % L := by
      conv_lhs => rw [← hdm]
      rw [Nat.add_assoc, Nat.mul_add_mod]
    rw [h1, hidef]
    by_cases hrc : r ≤ c
    · rw [if_pos hrc]
      have : r + (c - r) = c := by omega
      rw [this, Nat.mod_eq_of_lt hc]
    · rw [if_neg hrc]
      have : r + (c + L - r) = c + L := by omega
      rw [this, Nat.add_mod_right, Nat.mod_eq_of_lt hc]
  have hcmem : c ∈ (List.range L).map (fun i => (st.turn + i) % L) := by
    rw [List.mem_map]
    exact ⟨i, List.mem_range.mpr hiL, hmod⟩
  have := h c hcmem
  simp only [Bool.not_eq_eq_eq_not, Bool.not_true, Bool.not_eq_false] at this
  exact List.isEmpty_iff.mp this

theorem allEmptyB_false (st : QState) (h : allEmptyB st = false) :
    ∃ i < st.comps.length, (st.comps.getD i default).queue ≠ [] := by
  by_contra hcon
  push_neg at hcon
  have : allEmptyB st = true := (allEmptyB_spec st).mpr hcon
  rw [this] at h
  cases h

/-! ### stepQ: well-formedness and measure -/

theorem stepQ_cases (env : QEnv) (st : QState) (hne : allEmptyB st = false)
    (hlen : st.comps.length = env.numComp) :
    ∃ c p cs', findServe env st = some c ∧ c < env.numComp ∧
      compStep env c (st.comps.getD c default) = some (p, cs') ∧
      stepQ env st =
        { comps := st.comps.set c cs',
          turn := st.turn + 1,
          visited := st.visited + 1,
          promOrder :=
            if cs'.counter p = env.numSimp ∧ p ∉ st.promOrder then st.promOrder ++ [p]
            else st.promOrder,
          heap :=
            if cs'.counter p = env.numSimp ∧ p ∉ st.promOrder ∧ env.cfg.blind = false then
              heapInsert env.num_neighbours (sqdistE env p, p) st.heap
            else st.heap,
          nDist :=
            if cs'.counter p = env.numSimp ∧ p ∉ st.promOrder ∧ env.cfg.blind = false then
              st.nDist + 1
            else st.nDist } := by
  cases hfs : findServe env st with
  | none =>
      exfalso
      obtain ⟨i, hi, hnil⟩ := allEmptyB_false st hne
      exact hnil (findServe_none env st hfs i (hlen ▸ hi))
  | some c =>
      obtain ⟨hcL, hqne⟩ := findServe_some env st c hfs
      obtain ⟨p, cs', hcs⟩ := compStep_isSome env c _ hqne
      refine ⟨c, p, cs', rfl, hcL, hcs, ?_⟩
      unfold stepQ
      rw [hfs]
      dsimp only
      rw [hcs]

theorem stepQ_wf (env : QEnv) (st : QState) (hwf : wfState env st) :
    wfState env (stepQ env st) := by
  obtain ⟨hlen, hcomp⟩ := hwf
  by_cases hne : allEmptyB st = true
  · -- all queues empty: findServe yields none, only the turn changes
    have hfs : findServe env st = none := by
      unfold findServe
      rw [List.find?_eq_none]
      intro x hx
      simp only [List.mem_map, List.mem_range] at hx
      obtain ⟨i, hi, rfl⟩ := hx
      have hxL : (st.turn + i) % env.numComp < env.numComp := Nat.mod_lt _ (by omega)
      have hq := (allEmptyB_spec st).mp hne ((st.turn + i) % env.numComp)
        (by rw [hlen]; exact hxL)
      rw [List.getD_eq_getElem?_getD] at hq
      simp [hq]
    unfold stepQ
    rw [hfs]
    exact ⟨hlen, hcomp⟩
  · obtain ⟨c, p, cs', -, hcL, hcs, hstep⟩ :=
      stepQ_cases env st (by simpa using hne) hlen
    rw [hstep]
    refine ⟨by simpa using hlen, ?_⟩
    intro c' hc'
    by_cases hcc : c = c'
    · subst hcc
      rw [getD_set_self _ _ _ (by omega)]
      exact compStep_wf env c _ p cs' (hcomp c hcL) hcs
    · rw [getD_set_other _ _ _ _ hcc]
      exact hcomp c' hc'

theorem sum_qMeasure_set (env : QEnv) (st : QState) (c : ℕ) (cs' : CompState)
    (hlen : st.comps.length = env.numComp) (hc : c < env.numComp) :
    (∑ i ∈ Finset.range env.numComp,
        qMeasure env i (((st.comps.set c cs').getD i default).queue))
      + qMeasure env c ((st.comps.getD c default).queue)
    = (∑ i ∈ Finset.range env.numComp,
        qMeasure env i ((st.comps.getD i default).queue))
      + qMeasure env c cs'.queue := by
  have hrepl := sum_range_replace
    (fun i => qMeasure env i (((st.comps.set c cs').getD i default).queue))
    (fun i => qMeasure env i ((st.comps.getD i default).queue))
    env.numComp c hc
    (fun i _ hne => by dsimp only; rw [getD_set_other _ _ _ _ (Ne.symm hne)])
  have hself : (st.comps.set c cs').getD c default = cs' :=
    getD_set_self _ _ _ (by omega)
  dsimp only at hrepl
  rw [hself] at hrepl
  omega

theorem stepQ_measure (env : QEnv) (st : QState) (hwf : wfState env st)
    (hne : allEmptyB st = false) :
    stMeasure env (stepQ env st) + 1 = stMeasure env st := by
  obtain ⟨hlen, hcomp⟩ := hwf
  obtain ⟨c, p, cs', -, hcL, hcs, hstep⟩ := stepQ_cases env st hne hlen
  have hqm := compStep_measure env c _ p cs' (hcomp c hcL) hcs
  have hset := sum_qMeasure_set env st c cs' hlen hcL
  have h1 : stMeasure env (stepQ env st)
      = ∑ i ∈ Finset.range env.numComp,
          qMeasure env i (((st.comps.set c cs').getD i default).queue) := by
    rw [hstep]
    rfl
  have h2 : stMeasure env st
      = ∑ i ∈ Finset.range env.numComp,
          qMeasure env i ((st.comps.getD i default).queue) := rfl
  omega

/-! ### The engine loop: stopping and stabilization -/

theorem runAux_stopped (env : QEnv) (n : ℕ) (st : QState)
    (h : stoppedB env st = true) : runAux env n st = st := by
  cases n with
  | zero => rfl
  | succ n => simp [runAux, h]

theorem runAux_peel (env : QEnv) :
    ∀ (n : ℕ) (st : QState),
      runAux env (n + 1) st
        = (if stoppedB env (runAux env n st) then runAux env n st
           else stepQ env (runAux env n st)) := by
  intro n
  induction n with
  | zero =>
      intro st
      by_cases h : stoppedB env st <;> simp [runAux, h]
  | succ n ih =>
      intro st
      by_cases h : stoppedB env st
      · rw [runAux_stopped env _ st h, runAux_stopped env _ st h, if_pos h]
      · simp only [runAux, if_neg h]
        exact ih (stepQ env st)

theorem runAux_stable (env : QEnv) (T : ℕ) (st : QState)
    (h : stoppedB env (runAux env T st) = true) :
    ∀ d, runAux env (T + d) st = runAux env T st := by
  intro d
  induction d with
  | zero => rfl
  | succ d ih =>
      have harith : T + (d + 1) = (T + d) + 1 := rfl
      rw [harith, runAux_peel, ih, if_pos h]

theorem qMeasure_pos (env : QEnv) (c : ℕ) (cs : CompState) (hwf : wfComp env c cs)
    (hne : cs.queue ≠ []) : 1 ≤ qMeasure env c cs.queue := by
  cases hq : cs.queue with
  | nil => exact absurd hq hne
  | cons cur rest =>
      have hcur : wfCursor env c cur := hwf cur (by rw [hq]; exact List.mem_cons_self _ _)
      have := rangeSize_pos (env.files c cur.sj).length cur hcur.2
      rw [qMeasure_cons]
      omega

theorem stMeasure_zero_empty (env : QEnv) (st : QState) (hwf : wfState env st)
    (hm : stMeasure env st = 0) : allEmptyB st = true := by
  obtain ⟨hlen, hcomp⟩ := hwf
  rw [allEmptyB_spec]
  intro i hi
  by_contra hne
  have h1 : 1 ≤ qMeasure env i ((st.comps.getD i default).queue) :=
    qMeasure_pos env i _ (hcomp i (hlen ▸ hi)) hne
  have h2 : qMeasure env i ((st.comps.getD i default).queue)
      ≤ ∑ j ∈ Finset.range env.numComp, qMeasure env j ((st.comps.getD j default).queue) :=
    @Finset.single_le_sum ℕ ℕ _
      (fun j => qMeasure env j ((st.comps.getD j default).queue))
      (Finset.range env.numComp) (fun j _ => Nat.zero_le _) i
      (Finset.mem_range.mpr (by omega))
  have h3 : stMeasure env st
      = ∑ j ∈ Finset.range env.numComp, qMeasure env j ((st.comps.getD j default).queue) := rfl
  omega

theorem runAux_stops (env : QEnv) :
    ∀ (n : ℕ) (st : QState), wfState env st → stMeasure env st ≤ n →
      stoppedB env (runAux env n st) = true := by
  intro n
  induction n with
  | zero =>
      intro st hwf hm
      have hae := stMeasure_zero_empty env st hwf (by omega)
      simp only [runAux]
      unfold stoppedB
      rw [hae]
      simp
  | succ n ih =>
      intro st hwf hm
      by_cases h : stoppedB env st
      · rw [runAux_stopped env _ st h]; exact h
      · simp only [runAux, if_neg h]
        have hae : allEmptyB st = false := by
          unfold stoppedB at h
          rcases hb : allEmptyB st with hfalse | htrue
          · rfl
          · rw [hb] at h; simp at h
        have := stepQ_measure env st hwf hae
        exact ih (stepQ env st) (stepQ_wf env st hwf) (by omega)

/-! ### Initial state -/

theorem seedQueue_mem (env : QEnv) (c : ℕ) (cur : Cursor) :
    cur ∈ seedQueue env c ↔
      ∃ j < env.numSimp, cur ∈ seedFor (env.files c j) (env.qproj c j) j := by
  unfold seedQueue
  rw [mem_foldr_append]
  constructor
  · rintro ⟨j, hj, hcur⟩
    exact ⟨j, List.mem_range.mp hj, hcur⟩
  · rintro ⟨j, hj, hcur⟩
    exact ⟨j, List.mem_range.mpr hj, hcur⟩

theorem seedFor_wf (file : List idx_elem) (q : ℚ) (j : ℕ) (cur : Cursor)
    (h : cur ∈ seedFor file q j) : cur.sj = j ∧ cur.pos < file.length := by
  unfold seedFor at h
  have hcount : insertPoint file q ≤ file.length := List.countP_le_length _
  rw [List.mem_append] at h
  rcases h with h | h
  · by_cases hlt : insertPoint file q < file.length
    · rw [if_pos hlt] at h
      simp only [List.mem_singleton] at h
      subst h
      exact ⟨rfl, hlt⟩
    · rw [if_neg hlt] at h; cases h
  · by_cases hpos : 0 < insertPoint file q
    · rw [if_pos hpos] at h
      simp only [List.mem_singleton] at h
      subst h
      refine ⟨rfl, ?_⟩
      show insertPoint file q - 1 < file.length
      omega
    · rw [if_neg hpos] at h; cases h

theorem initQState_wf (env : QEnv) : wfState env (initQState env) := by
  constructor
  · simp [initQState]
  · intro c hc
    have hgetD : (initQState env).comps.getD c default = initComp env c := by
      unfold initQState
      exact getD_range_map (initComp env) env.numComp c hc
    rw [hgetD]
    intro cur hcur
    obtain ⟨j, hj, hmem⟩ := (seedQueue_mem env c cur).mp hcur
    obtain ⟨hsj, hpos⟩ := seedFor_wf (env.files c j) (env.qproj c j) j cur hmem
    exact ⟨by omega, by rw [hsj]; exact hpos⟩

/-! ### Claim C2: termination semantics -/

/-- Claim C2: the effective cap of each termination axis is `effCap` — the
maximum of the active absolute form (active when `≥ 0`) and the active
fractional form (active when `> 0`, scaled by `N`) — and the engine runs for
exactly the least number of steps after which the visit axis or the retrieve
axis has reached its effective cap (or all composites are exhausted):
whichever happens first stops the query. -/
theorem dci_query_termination (env : QEnv)
    (hact : effVisit env ≠ none ∨ effRetrieve env ≠ none) :
    ∃ T, runQ env = runAux env T (initQState env) ∧
      (capHitB (effVisit env) (runAux env T (initQState env)).visited = true ∨
       capHitB (effRetrieve env) (runAux env T (initQState env)).promOrder.length = true ∨
       allEmptyB (runAux env T (initQState env)) = true) ∧
      ∀ t < T,
        capHitB (effVisit env) (runAux env t (initQState env)).visited = false ∧
        capHitB (effRetrieve env) (runAux env t (initQState env)).promOrder.length = false ∧
        allEmptyB (runAux env t (initQState env)) = false := by
  have hstop : stoppedB env (runAux env (runFuel env) (initQState env)) = true :=
    runAux_stops env (runFuel env) (initQState env) (initQState_wf env) (le_refl _)
  have hex : ∃ t, stoppedB env (runAux env t (initQState env)) = true :=
    ⟨runFuel env, hstop⟩
  refine ⟨Nat.find hex, ?_, ?_, ?_⟩
  · have hT : stoppedB env (runAux env (Nat.find hex) (initQState env)) = true :=
      Nat.find_spec hex
    have hle : Nat.find hex ≤ runFuel env := Nat.find_min' hex hstop
    show runAux env (runFuel env) (initQState env)
        = runAux env (Nat.find hex) (initQState env)
    have harith : runFuel env = Nat.find hex + (runFuel env - Nat.find hex) := by omega
    rw [harith]
    exact runAux_stable env (Nat.find hex) _ hT _
  · have hT := Nat.find_spec hex
    generalize hgen : runAux env (Nat.find hex) (initQState env) = F at hT ⊢
    unfold stoppedB at hT
    simpa [or_assoc] using hT
  · intro t ht
    have hmin := Nat.find_min hex ht
    have hfalse : stoppedB env (runAux env t (initQState env)) = false := by
      rcases hb : stoppedB env (runAux env t (initQState env)) with h0 | h1
      · rfl
      · exact absurd hb hmin
    unfold stoppedB at hfalse
    simpa [and_assoc] using hfalse

/-- A concrete populated two-point index with one composite of one simple
index, used to instantiate the engine theorems. -/
def envW : QEnv :=
  { numPoints := 2, numComp := 1, numSimp := 1, dim := 1,
    data := fun p _ => (p : ℚ), query := fun _ => 0,
    files := fun _ _ => [⟨0, 0, 0⟩, ⟨1, 1, 1⟩],
    qproj := fun _ _ => 0,
    cfg := ⟨false, 100, 100, 0, 0, 1, 0⟩,
    num_neighbours := 1 }

theorem dci_query_termination_witness :
    ∃ T, runQ envW = runAux envW T (initQState envW) ∧
      (capHitB (effVisit envW) (runAux envW T (initQState envW)).visited = true ∨
       capHitB (effRetrieve envW) (runAux envW T (initQState envW)).promOrder.length = true ∨
       allEmptyB (runAux envW T (initQState envW)) = true) ∧
      ∀ t < T,
        capHitB (effVisit envW) (runAux envW t (initQState envW)).visited = false ∧
        capHitB (effRetrieve envW) (runAux envW t (initQState envW)).promOrder.length = false ∧
        allEmptyB (runAux envW t (initQState envW)) = false :=
  dci_query_termination envW
    (Or.inl (by simp [effVisit, effCap, envW]))

/-! ### Coverage bookkeeping: pending occurrences of each point -/

/-- The point ids of a position-file fragment. -/
def idsOf (file : List idx_elem) : List ℕ := file.map fun e => e.global_value

/-- The ids a cursor can still pop: the file suffix from its position upward,
or the file prefix down to position 0. -/
def curRangeIds (env : QEnv) (c : ℕ) (cur : Cursor) : List ℕ :=
  if cur.up then idsOf ((env.files c cur.sj).drop cur.pos)
  else idsOf ((env.files c cur.sj).take (cur.pos + 1))

/-- How many times point `p` can still be popped by the queued cursors. -/
def pendingCt (env : QEnv) (c : ℕ) (q : List Cursor) (p : ℕ) : ℕ :=
  (q.map fun cur => (curRangeIds env c cur).count p).sum

/-- How many times point `p` occurs across the composite's position files. -/
def fileOcc (env : QEnv) (c : ℕ) (p : ℕ) : ℕ :=
  ∑ j ∈ Finset.range env.numSimp, (idsOf (env.files c j)).count p

theorem pendingCt_perm (env : QEnv) (c : ℕ) (q q' : List Cursor) (h : q.Perm q')
    (p : ℕ) : pendingCt env c q p = pendingCt env c q' p :=
  List.Perm.sum_eq (h.map _)

theorem pendingCt_cons (env : QEnv) (c : ℕ) (cur : Cursor) (q : List Cursor) (p : ℕ) :
    pendingCt env c (cur :: q) p = (curRangeIds env c cur).count p + pendingCt env c q p := by
  simp [pendingCt]

theorem pendingCt_append (env : QEnv) (c : ℕ) (q q' : List Cursor) (p : ℕ) :
    pendingCt env c (q ++ q') p = pendingCt env c q p + pendingCt env c q' p := by
  simp [pendingCt]

theorem idsOf_drop_succ (file : List idx_elem) (n : ℕ) (h : n < file.length) :
    idsOf (file.drop n) = file[n].global_value :: idsOf (file.drop (n + 1)) := by
  rw [idsOf, List.drop_eq_getElem_cons h]
  rfl

theorem idsOf_take_succ (file : List idx_elem) (n : ℕ) (h : n < file.length) :
    idsOf (file.take (n + 1)) = idsOf (file.take n) ++ [file[n].global_value] := by
  have hm : n < (file.map fun e => e.global_value).length := by simpa using h
  unfold idsOf
  rw [List.map_take, List.map_take, List.take_succ, List.getElem?_eq_getElem hm]
  simp

/-- Popping a cursor with no successor consumes its single remaining entry. -/
theorem curRangeIds_pop_none (env : QEnv) (c : ℕ) (best : Cursor)
    (hpos : best.pos < (env.files c best.sj).length)
    (hadv : advanceCursor (env.files c best.sj).length best = none) (p : ℕ) :
    (curRangeIds env c best).count p
      = (if (entryAt env c best).global_value = p then 1 else 0) := by
  have hentry : entryAt env c best = (env.files c best.sj)[best.pos] :=
    getD_eq_getElem' _ _ hpos
  unfold advanceCursor at hadv
  by_cases hup : best.up = true
  · rw [if_pos hup] at hadv
    by_cases hlt : best.pos + 1 < (env.files c best.sj).length
    · rw [if_pos hlt] at hadv; cases hadv
    · rw [if_neg hlt] at hadv
      have h1 : curRangeIds env c best = idsOf ((env.files c best.sj).drop best.pos) := by
        unfold curRangeIds
        rw [if_pos hup]
      have h2 : (env.files c best.sj).drop (best.pos + 1) = [] :=
        List.drop_eq_nil_of_le (by omega)
      rw [hentry, h1, idsOf_drop_succ _ _ hpos, h2]
      simp [idsOf, List.count_cons]
  · rw [if_neg hup] at hadv
    simp only [Bool.not_eq_true] at hup
    by_cases h0 : best.pos = 0
    · have h1 : curRangeIds env c best
          = idsOf ((env.files c best.sj).take (best.pos + 1)) := by
        unfold curRangeIds
        rw [hup]
        simp
      have htake0 : (env.files c best.sj).take best.pos = [] := by
        rw [h0]
        rfl
      rw [hentry, h1, idsOf_take_succ _ _ hpos, htake0]
      simp [idsOf, List.count_cons]
    · rw [if_neg h0] at hadv; cases hadv

/-- Popping a cursor that advances moves exactly the entry under the cursor
out of the pending range. -/
theorem curRangeIds_pop_some (env : QEnv) (c : ℕ) (best cur' : Cursor)
    (hpos : best.pos < (env.files c best.sj).length)
    (hadv : advanceCursor (env.files c best.sj).length best = some cur') (p : ℕ) :
    (curRangeIds env c best).count p
      = (curRangeIds env c cur').count p
        + (if (entryAt env c best).global_value = p then 1 else 0) := by
  have hentry : entryAt env c best = (env.files c best.sj)[best.pos] :=
    getD_eq_getElem' _ _ hpos
  unfold advanceCursor at hadv
  by_cases hup : best.up = true
  · rw [if_pos hup] at hadv
    by_cases hlt : best.pos + 1 < (env.files c best.sj).length
    · rw [if_pos hlt] at hadv
      cases hadv
      have h1 : curRangeIds env c best = idsOf ((env.files c best.sj).drop best.pos) := by
        unfold curRangeIds
        rw [if_pos hup]
      have h2 : curRangeIds env c { best with pos := best.pos + 1 }
          = idsOf ((env.files c best.sj).drop (best.pos + 1)) := by
        unfold curRangeIds
        dsimp only
        rw [if_pos hup]
      rw [hentry, h1, h2, idsOf_drop_succ _ _ hpos]
      simp [List.count_cons]
    · rw [if_neg hlt] at hadv; cases hadv
  · rw [if_neg hup] at hadv
    simp only [Bool.not_eq_true] at hup
    by_cases h0 : best.pos = 0
    · rw [if_pos h0] at hadv; cases hadv
    · rw [if_neg h0] at hadv
      cases hadv
      have h1 : curRangeIds env c best
          = idsOf ((env.files c best.sj).take (best.pos + 1)) := by
        unfold curRangeIds
        rw [hup]
        simp
      have h2 : curRangeIds env c { best with pos := best.pos - 1 }
          = idsOf ((env.files c best.sj).take best.pos) := by
        unfold curRangeIds
        dsimp only
        rw [hup]
        simp only [Bool.false_eq_true, if_false]
        have hsucc : best.pos - 1 + 1 = best.pos := by omega
        rw [hsucc]
      rw [hentry, h1, h2, idsOf_take_succ _ _ hpos]
      simp [List.count_append, List.count_singleton]

/-! ### The per-composite invariant -/

/-- Invariant of one composite during the traversal: counters plus pending
occurrences account for all file occurrences, and a point is promoted exactly
when all `L_s` simple indices have witnessed it. -/
structure compInv (env : QEnv) (c : ℕ) (cs : CompState) : Prop where
  cnt_pending : ∀ p, cs.counter p + pendingCt env c cs.queue p = fileOcc env c p
  promoted_iff : ∀ p, p ∈ cs.promoted ↔ env.numSimp ≤ cs.counter p
  promoted_nodup : cs.promoted.Nodup

theorem compStep_inv (env : QEnv) (c : ℕ) (cs : CompState) (p0 : ℕ) (cs' : CompState)
    (hwf : wfComp env c cs) (hinv : compInv env c cs)
    (h : compStep env c cs = some (p0, cs')) : compInv env c cs' := by
  obtain ⟨best, rest, hpm, hp0, hcnt, hprom, hq⟩ := compStep_cases env c cs p0 cs' h
  have hperm := pickMin_perm env c cs.queue best rest hpm
  have hbest := hwf best (pickMin_mem env c cs.queue best rest hpm)
  have hpend : ∀ p, pendingCt env c cs.queue p
      = (curRangeIds env c best).count p + pendingCt env c rest p := fun p => by
    rw [pendingCt_perm env c cs.queue (best :: rest) hperm p, pendingCt_cons]
  have hpend' : ∀ p, pendingCt env c cs'.queue p
      + (if (entryAt env c best).global_value = p then 1 else 0)
      = pendingCt env c cs.queue p := by
    intro p
    rcases hq with ⟨hadv, hqe⟩ | ⟨cur', hadv, hqe⟩
    · rw [hqe, hpend p, curRangeIds_pop_none env c best hbest.2 hadv p]
      omega
    · rw [hqe, pendingCt_cons, hpend p, curRangeIds_pop_some env c best cur' hbest.2 hadv p]
      omega
  constructor
  · intro p
    have hold := hinv.cnt_pending p
    have hp' := hpend' p
    by_cases hpp : p = p0
    · subst hpp
      rw [hcnt, Function.update_same]
      have hit : (if (entryAt env c best).global_value = p then 1 else 0) = 1 :=
        if_pos hp0.symm
      omega
    · rw [hcnt, Function.update_noteq hpp]
      have hit : (if (entryAt env c best).global_value = p then 1 else 0) = 0 :=
        if_neg (fun hh => hpp (by rw [hp0, hh]))
      omega
  · intro p
    rw [hprom, hcnt]
    by_cases hpp : p = p0
    · subst hpp
      rw [Function.update_same]
      by_cases hLs : cs.counter p + 1 = env.numSimp
      · rw [if_pos hLs]
        exact ⟨fun _ => by omega, fun _ => by simp⟩
      · rw [if_neg hLs]
        have hold := hinv.promoted_iff p
        constructor
        · intro hmem
          have := hold.mp hmem
          omega
        · intro hle
          exact hold.mpr (by omega)
    · rw [Function.update_noteq hpp]
      have hold := hinv.promoted_iff p
      by_cases hLs : cs.counter p0 + 1 = env.numSimp
      · rw [if_pos hLs]
        rw [List.mem_append]
        simp only [List.mem_singleton]
        constructor
        · intro hmem
          rcases hmem with hmem | hmem
          · exact hold.mp hmem
          · exact absurd hmem hpp
        · intro hle
          exact Or.inl (hold.mpr hle)
      · rw [if_neg hLs]
        exact hold
  · by_cases hLs : cs.counter p0 + 1 = env.numSimp
    · rw [hprom, if_pos hLs]
      have hnotmem : p0 ∉ cs.promoted := by
        intro hmem
        have := hinv.promoted_iff p0 |>.mp hmem
        omega
      have hperm2 : (cs.promoted ++ [p0]).Perm (p0 :: cs.promoted) :=
        List.perm_append_singleton p0 cs.promoted
      rw [hperm2.nodup_iff]
      exact List.Nodup.cons hnotmem hinv.promoted_nodup
    · rw [hprom, if_neg hLs]
      exact hinv.promoted_nodup

/-! ### The invariant holds initially -/

theorem idsOf_split (file : List idx_elem) (s : ℕ) (p : ℕ) :
    (idsOf (file.take s)).count p + (idsOf (file.drop s)).count p
      = (idsOf file).count p := by
  rw [idsOf, idsOf, idsOf, ← List.count_append, ← List.map_append, List.take_append_drop]

theorem pendingCt_single (env : QEnv) (c : ℕ) (cur : Cursor) (p : ℕ) :
    pendingCt env c [cur] p = (curRangeIds env c cur).count p := by
  simp [pendingCt]

theorem pendingCt_seedFor (env : QEnv) (c j : ℕ) (p : ℕ) :
    pendingCt env c (seedFor (env.files c j) (env.qproj c j) j) p
      = (idsOf (env.files c j)).count p := by
  have hsle : insertPoint (env.files c j) (env.qproj c j) ≤ (env.files c j).length :=
    List.countP_le_length _
  unfold seedFor
  by_cases h1 : insertPoint (env.files c j) (env.qproj c j) < (env.files c j).length
  · by_cases h2 : 0 < insertPoint (env.files c j) (env.qproj c j)
    · rw [if_pos h1, if_pos h2, pendingCt_append, pendingCt_single, pendingCt_single]
      have hup : curRangeIds env c ⟨j, true, insertPoint (env.files c j) (env.qproj c j)⟩
          = idsOf ((env.files c j).drop (insertPoint (env.files c j) (env.qproj c j))) := by
        unfold curRangeIds
        simp
      have hdn : curRangeIds env c ⟨j, false, insertPoint (env.files c j) (env.qproj c j) - 1⟩
          = idsOf ((env.files c j).take (insertPoint (env.files c j) (env.qproj c j))) := by
        unfold curRangeIds
        simp only [Bool.false_eq_true, if_false]
        have hsucc : insertPoint (env.files c j) (env.qproj c j) - 1 + 1
            = insertPoint (env.files c j) (env.qproj c j) := by omega
        rw [hsucc]
      rw [hup, hdn]
      have := idsOf_split (env.files c j) (insertPoint (env.files c j) (env.qproj c j)) p
      omega
    · rw [if_pos h1, if_neg h2]
      have h0 : insertPoint (env.files c j) (env.qproj c j) = 0 := by omega
      rw [List.append_nil, pendingCt_single]
      have hup : curRangeIds env c ⟨j, true, insertPoint (env.files c j) (env.qproj c j)⟩
          = idsOf ((env.files c j).drop 0) := by
        unfold curRangeIds
        simp [h0]
      rw [hup, List.drop_zero]
  · by_cases h2 : 0 < insertPoint (env.files c j) (env.qproj c j)
    · rw [if_neg h1, if_pos h2, List.nil_append, pendingCt_single]
      have hlen : insertPoint (env.files c j) (env.qproj c j) = (env.files c j).length := by
        omega
      have hdn : curRangeIds env c ⟨j, false, insertPoint (env.files c j) (env.qproj c j) - 1⟩
          = idsOf ((env.files c j).take (insertPoint (env.files c j) (env.qproj c j))) := by
        unfold curRangeIds
        simp only [Bool.false_eq_true, if_false]
        have hsucc : insertPoint (env.files c j) (env.qproj c j) - 1 + 1
            = insertPoint (env.files c j) (env.qproj c j) := by omega
        rw [hsucc]
      rw [hdn, hlen, List.take_of_length_le (le_refl _)]
    · rw [if_neg h1, if_neg h2]
      have h0 : (env.files c j).length = 0 := by omega
      have hnil : env.files c j = [] := List.length_eq_zero.mp h0
      simp [pendingCt, hnil, idsOf]

theorem sum_map_range (f : ℕ → ℕ) (n : ℕ) :
    ((List.range n).map f).sum = ∑ i ∈ Finset.range n, f i := by
  induction n with
  | zero => simp
  | succ n ih =>
      rw [List.range_succ, List.map_append, List.sum_append, Finset.sum_range_succ, ih]
      simp

theorem pendingCt_seedQueue (env : QEnv) (c : ℕ) (p : ℕ) :
    pendingCt env c (seedQueue env c) p = fileOcc env c p := by
  unfold seedQueue fileOcc
  have hfold : ∀ l : List ℕ,
      pendingCt env c
        (l.foldr (fun j acc => seedFor (env.files c j) (env.qproj c j) j ++ acc) []) p
      = (l.map fun j => (idsOf (env.files c j)).count p).sum := by
    intro l
    induction l with
    | nil => simp [pendingCt]
    | cons a l ih =>
        rw [List.foldr_cons, pendingCt_append, List.map_cons, List.sum_cons, ih,
          pendingCt_seedFor]
  rw [hfold, sum_map_range]

theorem initComp_inv (env : QEnv) (c : ℕ) (hLs : 1 ≤ env.numSimp) :
    compInv env c (initComp env c) := by
  refine ⟨?_, ?_, List.nodup_nil⟩
  · intro p
    show (0 : ℕ) + pendingCt env c (seedQueue env c) p = fileOcc env c p
    rw [Nat.zero_add, pendingCt_seedQueue]
  · intro p
    constructor
    · intro h
      cases h
    · intro h
      exfalso
      have : (initComp env c).counter p = 0 := rfl
      omega

/-! ### The bounded max-heap keeps the k smallest distances -/

theorem worstEntry_spec :
    ∀ (hp : List (ℚ × ℕ)), hp ≠ [] →
      ∃ m, worstEntry hp = some m ∧ m ∈ hp ∧ ∀ x ∈ hp, x.1 ≤ m.1 := by
  intro hp
  induction hp with
  | nil => intro h; exact absurd rfl h
  | cons a l ih =>
      intro _
      by_cases hln : l = []
      · subst hln
        refine ⟨a, ?_, List.mem_cons_self _ _, ?_⟩
        · rfl
        · intro x hx
          rcases List.mem_cons.mp hx with rfl | hx
          · exact le_refl _
          · cases hx
      · obtain ⟨m, hm, hmem, hbound⟩ := ih hln
        by_cases hle : m.1 ≤ a.1
        · refine ⟨a, ?_, List.mem_cons_self _ _, ?_⟩
          · unfold worstEntry
            rw [hm]
            dsimp only
            rw [if_pos hle]
          · intro x hx
            rcases List.mem_cons.mp hx with rfl | hx
            · exact le_refl _
            · exact le_trans (hbound x hx) hle
        · refine ⟨m, ?_, List.mem_cons_of_mem a hmem, ?_⟩
          · unfold worstEntry
            rw [hm]
            dsimp only
            rw [if_neg hle]
          · intro x hx
            rcases List.mem_cons.mp hx with rfl | hx
            · exact le_of_not_le hle
            · exact hbound x hx

theorem getD_eq_getElem0 (l : List ℚ) (i : ℕ) (h : i < l.length) : l.getD i 0 = l[i] := by
  rw [List.getD_eq_getElem?_getD, List.getElem?_eq_getElem h]
  rfl

theorem take_cons_sub (x : ℚ) (T' : List ℚ) (k : ℕ) (hk : 1 ≤ k) :
    (x :: T').take k = x :: T'.take (k - 1) := by
  have hh : k = (k - 1) + 1 := by omega
  conv_lhs => rw [hh]
  rw [List.take_succ_cons]

theorem getD_cons_sub (x : ℚ) (T' : List ℚ) (k : ℕ) (hk : 2 ≤ k) :
    (x :: T').getD (k - 1) 0 = T'.getD (k - 2) 0 := by
  have hh : k - 1 = (k - 2) + 1 := by omega
  rw [hh, List.getD_cons_succ]

theorem take_split_last (T' : List ℚ) (k : ℕ) (h : k < T'.length) :
    T'.take (k + 1) = T'.take k ++ [T'.getD k 0] := by
  rw [List.take_succ, List.getElem?_eq_getElem h, getD_eq_getElem0 T' k h]
  rfl

theorem sorted_take_getD (T : List ℚ) (hT : T.Sorted (· ≤ ·)) :
    ∀ (k : ℕ), 1 ≤ k → k ≤ T.length →
      T.getD (k - 1) 0 ∈ T.take k ∧ ∀ y ∈ T.take k, y ≤ T.getD (k - 1) 0 := by
  induction T with
  | nil =>
      intro k hk1 hkle
      simp at hkle
      omega
  | cons x T' ih =>
      intro k hk1 hkle
      obtain ⟨hx, hT'⟩ := List.sorted_cons.mp hT
      by_cases hk : k = 1
      · subst hk
        constructor
        · simp
        · intro y hy
          simp at hy
          simp [hy]
      · have hk2 : 2 ≤ k := by omega
        have hlen : k - 1 ≤ T'.length := by
          simp only [List.length_cons] at hkle
          omega
        have ih' := ih hT' (k - 1) (by omega) hlen
        have hsub : k - 1 - 1 = k - 2 := by omega
        rw [hsub] at ih'
        rw [take_cons_sub x T' k (by omega), getD_cons_sub x T' k hk2]
        constructor
        · exact List.mem_cons_of_mem x ih'.1
        · intro y hy
          rcases List.mem_cons.mp hy with rfl | hy
          · exact hx _ (List.take_subset _ _ ih'.1)
          · exact ih'.2 y hy

theorem take_orderedInsert_lt (d : ℚ) :
    ∀ (T : List ℚ) (k : ℕ), T.Sorted (· ≤ ·) → 1 ≤ k → k ≤ T.length →
      d < T.getD (k - 1) 0 →
      (((List.orderedInsert (· ≤ ·) d T).take k : List ℚ) : Multiset ℚ)
        = d ::ₘ ((T.take (k - 1) : List ℚ) : Multiset ℚ) := by
  intro T
  induction T with
  | nil =>
      intro k _ hk1 hkle _
      simp at hkle
      omega
  | cons x T' ih =>
      intro k hT hk1 hkle hd
      obtain ⟨hx, hT'⟩ := List.sorted_cons.mp hT
      by_cases hdx : d ≤ x
      · rw [List.orderedInsert, if_pos hdx, take_cons_sub d (x :: T') k hk1,
          Multiset.cons_coe]
      · by_cases hk : k = 1
        · exfalso
          subst hk
          have hd0 : d < x := by simpa using hd
          exact hdx (le_of_lt hd0)
        · have hk2 : 2 ≤ k := by omega
          rw [getD_cons_sub x T' k hk2] at hd
          have hlen : k - 1 ≤ T'.length := by
            simp only [List.length_cons] at hkle
            omega
          have hsub : k - 1 - 1 = k - 2 := by omega
          have ihres := ih (k - 1) hT' (by omega) hlen (by rw [hsub]; exact hd)
          rw [hsub] at ihres
          rw [List.orderedInsert, if_neg hdx,
            take_cons_sub x (List.orderedInsert (· ≤ ·) d T') k hk1,
            take_cons_sub x T' (k - 1) (by omega), hsub,
            ← Multiset.cons_coe, ihres, Multiset.cons_swap, Multiset.cons_coe]

theorem take_orderedInsert_ge (d : ℚ) :
    ∀ (T : List ℚ) (k : ℕ), T.Sorted (· ≤ ·) → 1 ≤ k → k ≤ T.length →
      T.getD (k - 1) 0 ≤ d →
      (((List.orderedInsert (· ≤ ·) d T).take k : List ℚ) : Multiset ℚ)
        = ((T.take k : List ℚ) : Multiset ℚ) := by
  intro T
  induction T with
  | nil =>
      intro k _ hk1 hkle _
      simp at hkle
      omega
  | cons x T' ih =>
      intro k hT hk1 hkle hd
      obtain ⟨hx, hT'⟩ := List.sorted_cons.mp hT
      by_cases hdx : d ≤ x
      · by_cases hk : k = 1
        · subst hk
          rw [List.orderedInsert, if_pos hdx]
          have hd0 : x ≤ d := by simpa using hd
          have : d = x := le_antisymm hdx hd0
          rw [this]
          rfl
        · have hk2 : 2 ≤ k := by omega
          rw [getD_cons_sub x T' k hk2] at hd
          have hlen2 : k - 2 < T'.length := by
            simp only [List.length_cons] at hkle
            omega
          have hxmem : x ≤ T'.getD (k - 2) 0 := by
            rw [getD_eq_getElem0 T' (k - 2) hlen2]
            exact hx _ (List.getElem_mem hlen2)
          have hdeq : d = x := le_antisymm hdx (le_trans hxmem hd)
          have hgetx : T'.getD (k - 2) 0 = x := le_antisymm (le_trans hd hdx) hxmem
          rw [List.orderedInsert, if_pos hdx]
          have ht1 : (d :: x :: T').take k = d :: x :: T'.take (k - 2) := by
            rw [take_cons_sub d (x :: T') k (by omega),
              take_cons_sub x T' (k - 1) (by omega)]
            have : k - 1 - 1 = k - 2 := by omega
            rw [this]
          have ht2 : (x :: T').take k = x :: (T'.take (k - 2) ++ [T'.getD (k - 2) 0]) := by
            rw [take_cons_sub x T' k hk1]
            have hh : k - 1 = (k - 2) + 1 := by omega
            rw [hh, take_split_last T' (k - 2) hlen2]
          rw [ht1, ht2, hdeq, hgetx]
          apply Multiset.coe_eq_coe.mpr
          exact List.Perm.cons x (List.perm_append_singleton x _).symm
      · rw [List.orderedInsert, if_neg hdx]
        by_cases hk : k = 1
        · subst hk
          rfl
        · have hk2 : 2 ≤ k := by omega
          rw [getD_cons_sub x T' k hk2] at hd
          have hlen : k - 1 ≤ T'.length := by
            simp only [List.length_cons] at hkle
            omega
          have hsub : k - 1 - 1 = k - 2 := by omega
          have ihres := ih (k - 1) hT' (by omega) hlen (by rw [hsub]; exact hd)
          rw [take_cons_sub x (List.orderedInsert (· ≤ ·) d T') k hk1,
            take_cons_sub x T' k hk1, ← Multiset.cons_coe, ← Multiset.cons_coe, ihres]

theorem perm_cons_erase_pair (m : ℚ × ℕ) (hp : List (ℚ × ℕ)) (h : m ∈ hp) :
    hp.Perm (m :: hp.erase m) := by
  induction hp with
  | nil => cases h
  | cons a l ih =>
      by_cases hae : a = m
      · subst hae
        rw [List.erase_cons_head]
      · have hbeq : ¬(a == m) := by simp [hae]
        rw [List.erase_cons_tail hbeq]
        have hml : m ∈ l := by
          rcases List.mem_cons.mp h with h1 | h1
          · exact absurd h1.symm hae
          · exact h1
        exact List.Perm.trans ((ih hml).cons a) (List.Perm.swap _ _ _)

theorem heapInsert_multiset (k : ℕ) (d : ℚ) (pid : ℕ) (hp : List (ℚ × ℕ)) (T : List ℚ)
    (hT : T.Sorted (· ≤ ·))
    (hm : ((hp.map Prod.fst : List ℚ) : Multiset ℚ) = ((T.take k : List ℚ) : Multiset ℚ)) :
    (((heapInsert k (d, pid) hp).map Prod.fst : List ℚ) : Multiset ℚ)
      = (((List.orderedInsert (· ≤ ·) d T).take k : List ℚ) : Multiset ℚ) := by
  have hlen : hp.length = min k T.length := by
    have h1 : (hp.map Prod.fst).length = (T.take k).length := by
      have h2 := congrArg Multiset.card hm
      simpa [Multiset.coe_card] using h2
    simpa using h1
  unfold heapInsert
  by_cases hfull : hp.length < k
  · rw [if_pos hfull]
    have hTlt : T.length < k := by omega
    have htakeT : T.take k = T := List.take_of_length_le (by omega)
    have htakeOI : (List.orderedInsert (· ≤ ·) d T).take k
        = List.orderedInsert (· ≤ ·) d T := by
      apply List.take_of_length_le
      rw [List.orderedInsert_length]
      omega
    rw [htakeOI]
    rw [htakeT] at hm
    have hOI : ((List.orderedInsert (· ≤ ·) d T : List ℚ) : Multiset ℚ)
        = d ::ₘ ((T : List ℚ) : Multiset ℚ) := by
      rw [Multiset.cons_coe]
      exact Multiset.coe_eq_coe.mpr (List.perm_orderedInsert _ d T)
    rw [List.map_cons, ← Multiset.cons_coe, hOI]
    dsimp only
    rw [hm]
  · rw [if_neg hfull]
    have hk_eq : hp.length = k := by omega
    have hTk : k ≤ T.length := by
      by_contra hcon
      push_neg at hcon
      omega
    by_cases hk0 : k = 0
    · subst hk0
      have hpnil : hp = [] := List.length_eq_zero.mp hk_eq
      subst hpnil
      simp [worstEntry]
    · have hk1 : 1 ≤ k := by omega
      have hne : hp ≠ [] := by
        intro h
        rw [h] at hk_eq
        simp at hk_eq
        omega
      obtain ⟨m, hw, hmem, hbound⟩ := worstEntry_spec hp hne
      rw [hw]
      dsimp only
      have hstg := sorted_take_getD T hT k hk1 hTk
      have hperm : hp.Perm (m :: hp.erase m) := perm_cons_erase_pair m hp hmem
      have hmfst : m.1 ∈ (T.take k : List ℚ) := by
        have h3 : m.1 ∈ hp.map Prod.fst := List.mem_map_of_mem _ hmem
        have h4 : m.1 ∈ ((T.take k : List ℚ) : Multiset ℚ) := by
          rw [← hm]
          exact Multiset.mem_coe.mpr h3
        exact Multiset.mem_coe.mp h4
      have hgmem : T.getD (k - 1) 0 ∈ hp.map Prod.fst := by
        have h5 : T.getD (k - 1) 0 ∈ ((T.take k : List ℚ) : Multiset ℚ) :=
          Multiset.mem_coe.mpr hstg.1
        rw [← hm] at h5
        exact Multiset.mem_coe.mp h5
      obtain ⟨e, hemem, heq⟩ := List.mem_map.mp hgmem
      have h1 : m.1 ≤ T.getD (k - 1) 0 := hstg.2 _ hmfst
      have h2 : T.getD (k - 1) 0 ≤ m.1 := by
        rw [← heq]
        exact hbound e hemem
      have hmeq : m.1 = T.getD (k - 1) 0 := le_antisymm h1 h2
      by_cases hlt : d < m.1
      · rw [if_pos hlt]
        have hcoe : ((hp.map Prod.fst : List ℚ) : Multiset ℚ)
            = m.1 ::ₘ (((hp.erase m).map Prod.fst : List ℚ) : Multiset ℚ) := by
          rw [Multiset.cons_coe]
          exact Multiset.coe_eq_coe.mpr (hperm.map Prod.fst)
        have hsplit : T.take k = T.take (k - 1) ++ [T.getD (k - 1) 0] := by
          have hh : k = (k - 1) + 1 := by omega
          conv_lhs => rw [hh]
          rw [take_split_last T (k - 1) (by omega)]
        have herase : (((hp.erase m).map Prod.fst : List ℚ) : Multiset ℚ)
            = ((T.take (k - 1) : List ℚ) : Multiset ℚ) := by
          have h6 := hm
          rw [hcoe, hsplit, hmeq] at h6
          have hr : ((T.take (k - 1) ++ [T.getD (k - 1) 0] : List ℚ) : Multiset ℚ)
              = T.getD (k - 1) 0 ::ₘ ((T.take (k - 1) : List ℚ) : Multiset ℚ) := by
            rw [Multiset.cons_coe]
            exact Multiset.coe_eq_coe.mpr (List.perm_append_singleton _ _)
          rw [hr] at h6
          exact (Multiset.cons_inj_right _).mp h6
        rw [List.map_cons]
        rw [take_orderedInsert_lt d T k hT hk1 hTk (by rw [← hmeq]; exact hlt),
          ← herase, Multiset.cons_coe]
      · rw [if_neg hlt]
        rw [take_orderedInsert_ge d T k hT hk1 hTk (by rw [← hmeq]; exact le_of_not_lt hlt)]
        exact hm

theorem insertionSort_append_single (S : List ℚ) (d : ℚ) :
    List.insertionSort (· ≤ ·) (S ++ [d])
      = List.orderedInsert (· ≤ ·) d (List.insertionSort (· ≤ ·) S) :=
  List.eq_of_perm_of_sorted
    ((List.perm_insertionSort _ _).trans
      ((List.perm_append_singleton d S).trans
        (((List.perm_insertionSort (· ≤ ·) S).symm.cons d).trans
          (List.perm_orderedInsert _ d _).symm)))
    (List.sorted_insertionSort _ _)
    (List.Sorted.orderedInsert d _ (List.sorted_insertionSort _ _))

/-! ### The whole-query invariant -/

/-- Invariant of the whole engine state: structural well-formedness, the
per-composite invariants, the promotion-order list records exactly the points
promoted by some composite (without duplicates), the heap holds the `k`
smallest distances among promoted points, blind mode computes no distances,
and visits account for the consumed measure. -/
structure queryInv (env : QEnv) (st : QState) : Prop where
  wf : wfState env st
  comp : ∀ c < env.numComp, compInv env c (st.comps.getD c default)
  prom_iff : ∀ x, x ∈ st.promOrder ↔
    ∃ c < env.numComp, x ∈ (st.comps.getD c default).promoted
  prom_nodup : st.promOrder.Nodup
  heap_inv : env.cfg.blind = false →
    ((st.heap.map Prod.fst : List (ℚ)) : Multiset ℚ)
      = (((List.insertionSort (· ≤ ·) (st.promOrder.map (sqdistE env))).take
            env.num_neighbours : List ℚ) : Multiset ℚ)
  blind_heap : env.cfg.blind = true → st.heap = []
  ndist_eq : st.nDist = (if env.cfg.blind then 0 else st.promOrder.length)
  vis_meas : st.visited + stMeasure env st = runFuel env

theorem initQState_inv (env : QEnv) (hLs : 1 ≤ env.numSimp) :
    queryInv env (initQState env) := by
  have hgetD : ∀ c < env.numComp,
      (initQState env).comps.getD c default = initComp env c := by
    intro c hc
    exact getD_range_map (initComp env) env.numComp c hc
  refine ⟨initQState_wf env, ?_, ?_, List.nodup_nil, ?_, ?_, ?_, ?_⟩
  · intro c hc
    rw [hgetD c hc]
    exact initComp_inv env c hLs
  · intro x
    constructor
    · intro h
      cases h
    · rintro ⟨c, hc, hmem⟩
      rw [hgetD c hc] at hmem
      cases hmem
  · intro _
    simp [initQState]
  · intro _
    rfl
  · show (0 : ℕ) = if env.cfg.blind then 0 else ([] : List ℕ).length
    cases hb : env.cfg.blind <;> rfl
  · show 0 + stMeasure env (initQState env) = runFuel env
    rw [Nat.zero_add]
    rfl

theorem stepQ_inv (env : QEnv) (st : QState) (hinv : queryInv env st)
    (hne : allEmptyB st = false) : queryInv env (stepQ env st) := by
  obtain ⟨c, p, cs', hfs, hcL, hcs, hstep⟩ := stepQ_cases env st hne hinv.wf.1
  have hlen : st.comps.length = env.numComp := hinv.wf.1
  have hwfc := hinv.wf.2 c hcL
  have hcinv := hinv.comp c hcL
  have hcinv' := compStep_inv env c _ p cs' hwfc hcinv hcs
  obtain ⟨best, rest, hpm, hp0, hcnt, hprom, hq⟩ := compStep_cases env c _ p cs' hcs
  have hcntp : cs'.counter p = (st.comps.getD c default).counter p + 1 := by
    rw [hcnt, Function.update_same]
  have hcomps : (stepQ env st).comps = st.comps.set c cs' := by rw [hstep]
  have hvis : (stepQ env st).visited = st.visited + 1 := by rw [hstep]
  have hpo : (stepQ env st).promOrder
      = (if cs'.counter p = env.numSimp ∧ p ∉ st.promOrder then st.promOrder ++ [p]
         else st.promOrder) := by rw [hstep]
  have hhp : (stepQ env st).heap
      = (if cs'.counter p = env.numSimp ∧ p ∉ st.promOrder ∧ env.cfg.blind = false then
           heapInsert env.num_neighbours (sqdistE env p, p) st.heap
         else st.heap) := by rw [hstep]
  have hnd : (stepQ env st).nDist
      = (if cs'.counter p = env.numSimp ∧ p ∉ st.promOrder ∧ env.cfg.blind = false then
           st.nDist + 1
         else st.nDist) := by rw [hstep]
  have hpromc : cs'.promoted
      = (if cs'.counter p = env.numSimp then (st.comps.getD c default).promoted ++ [p]
         else (st.comps.getD c default).promoted) := by
    rw [hprom]
    by_cases hc1 : (st.comps.getD c default).counter p + 1 = env.numSimp
    · rw [if_pos hc1, if_pos (by omega : cs'.counter p = env.numSimp)]
    · rw [if_neg hc1, if_neg (by omega : ¬cs'.counter p = env.numSimp)]
  have hgetD' : ∀ c' < env.numComp,
      (stepQ env st).comps.getD c' default
        = (if c' = c then cs' else st.comps.getD c' default) := by
    intro c' hc'
    rw [hcomps]
    by_cases hcc : c' = c
    · rw [if_pos hcc, hcc, getD_set_self _ _ _ (by omega)]
    · rw [if_neg hcc, getD_set_other _ _ _ _ (fun h => hcc h.symm)]
  refine ⟨stepQ_wf env st hinv.wf, ?_, ?_, ?_, ?_, ?_, ?_, ?_⟩
  · -- per-composite invariants
    intro c' hc'
    rw [hgetD' c' hc']
    by_cases hcc : c' = c
    · rw [if_pos hcc, hcc]
      exact hcinv'
    · rw [if_neg hcc]
      exact hinv.comp c' hc'
  · -- promotion-order characterization
    intro x
    rw [hpo]
    by_cases hFP : cs'.counter p = env.numSimp ∧ p ∉ st.promOrder
    · rw [if_pos hFP]
      rw [List.mem_append, List.mem_singleton]
      constructor
      · intro hx
        rcases hx with hx | rfl
        · obtain ⟨c0, hc0, hmem⟩ := (hinv.prom_iff x).mp hx
          refine ⟨c0, hc0, ?_⟩
          rw [hgetD' c0 hc0]
          by_cases hcc : c0 = c
          · rw [if_pos hcc, hpromc]
            subst hcc
            by_cases hLs : cs'.counter p = env.numSimp
            · rw [if_pos hLs]
              exact List.mem_append_left _ hmem
            · rw [if_neg hLs]
              exact hmem
          · rw [if_neg hcc]
            exact hmem
        · refine ⟨c, hcL, ?_⟩
          rw [hgetD' c hcL, if_pos rfl, hpromc, if_pos hFP.1]
          exact List.mem_append_right _ (List.mem_singleton_self _)
      · rintro ⟨c0, hc0, hmem⟩
        rw [hgetD' c0 hc0] at hmem
        by_cases hcc : c0 = c
        · rw [if_pos hcc, hpromc, if_pos hFP.1] at hmem
          rcases List.mem_append.mp hmem with hmem | hmem
          · exact Or.inl ((hinv.prom_iff x).mpr ⟨c0, hc0, by rw [hcc]; exact hmem⟩)
          · exact Or.inr (List.mem_singleton.mp hmem)
        · rw [if_neg hcc] at hmem
          exact Or.inl ((hinv.prom_iff x).mpr ⟨c0, hc0, hmem⟩)
    · rw [if_neg hFP]
      constructor
      · intro hx
        obtain ⟨c0, hc0, hmem⟩ := (hinv.prom_iff x).mp hx
        refine ⟨c0, hc0, ?_⟩
        rw [hgetD' c0 hc0]
        by_cases hcc : c0 = c
        · rw [if_pos hcc, hpromc]
          subst hcc
          by_cases hLs : cs'.counter p = env.numSimp
          · rw [if_pos hLs]
            exact List.mem_append_left _ hmem
          · rw [if_neg hLs]
            exact hmem
        · rw [if_neg hcc]
          exact hmem
      · rintro ⟨c0, hc0, hmem⟩
        rw [hgetD' c0 hc0] at hmem
        by_cases hcc : c0 = c
        · rw [if_pos hcc, hpromc] at hmem
          by_cases hLs : cs'.counter p = env.numSimp
          · rw [if_pos hLs] at hmem
            rcases List.mem_append.mp hmem with hmem | hmem
            · exact (hinv.prom_iff x).mpr ⟨c0, hc0, by rw [hcc]; exact hmem⟩
            · -- x = p promoted now, but p was already in promOrder (hFP failed)
              have hxp : x = p := List.mem_singleton.mp hmem
              subst hxp
              by_cases hpin : x ∈ st.promOrder
              · exact hpin
              · exact absurd ⟨hLs, hpin⟩ hFP
          · rw [if_neg hLs] at hmem
            exact (hinv.prom_iff x).mpr ⟨c0, hc0, by rw [hcc]; exact hmem⟩
        · rw [if_neg hcc] at hmem
          exact (hinv.prom_iff x).mpr ⟨c0, hc0, hmem⟩
  · -- no duplicates in the promotion order
    rw [hpo]
    by_cases hFP : cs'.counter p = env.numSimp ∧ p ∉ st.promOrder
    · rw [if_pos hFP]
      rw [(List.perm_append_singleton p st.promOrder).nodup_iff]
      exact List.Nodup.cons hFP.2 hinv.prom_nodup
    · rw [if_neg hFP]
      exact hinv.prom_nodup
  · -- heap invariant
    intro hblind
    rw [hhp, hpo]
    by_cases hFP : cs'.counter p = env.numSimp ∧ p ∉ st.promOrder
    · rw [if_pos (by exact ⟨hFP.1, hFP.2, hblind⟩), if_pos hFP]
      rw [List.map_append]
      simp only [List.map_cons, List.map_nil]
      rw [insertionSort_append_single]
      exact heapInsert_multiset env.num_neighbours (sqdistE env p) p st.heap
        (List.insertionSort (· ≤ ·) (st.promOrder.map (sqdistE env)))
        (List.sorted_insertionSort _ _) (hinv.heap_inv hblind)
    · rw [if_neg (by intro hcon; exact hFP ⟨hcon.1, hcon.2.1⟩), if_neg hFP]
      exact hinv.heap_inv hblind
  · -- blind mode never touches the heap
    intro hblind
    rw [hhp]
    rw [if_neg (by intro hcon; rw [hblind] at hcon; cases hcon.2.2)]
    exact hinv.blind_heap hblind
  · -- distance-computation counter
    rw [hnd, hpo]
    by_cases hblind : env.cfg.blind = true
    · rw [if_neg (by intro hcon; rw [hblind] at hcon; cases hcon.2.2)]
      rw [hinv.ndist_eq]
      simp [hblind]
    · have hbf : env.cfg.blind = false := by
        rcases hb : env.cfg.blind with h0 | h1
        · rfl
        · exact absurd hb hblind
      by_cases hFP : cs'.counter p = env.numSimp ∧ p ∉ st.promOrder
      · rw [if_pos ⟨hFP.1, hFP.2, hbf⟩, if_pos hFP, hinv.ndist_eq]
        simp [hbf]
      · rw [if_neg (by intro hcon; exact hFP ⟨hcon.1, hcon.2.1⟩), if_neg hFP]
        exact hinv.ndist_eq
  · -- visits account for consumed measure
    rw [hvis]
    have hm := stepQ_measure env st hinv.wf hne
    have hv := hinv.vis_meas
    omega

theorem runAux_inv (env : QEnv) :
    ∀ (n : ℕ) (st : QState), queryInv env st → queryInv env (runAux env n st) := by
  intro n
  induction n with
  | zero => intro st h; exact h
  | succ n ih =>
      intro st h
      by_cases hs : stoppedB env st
      · rw [runAux_stopped env _ st hs]
        exact h
      · simp only [runAux, if_neg hs]
        apply ih
        apply stepQ_inv env st h
        unfold stoppedB at hs
        rcases hb : allEmptyB st with h0 | h1
        · rfl
        · rw [hb] at hs
          simp at hs

/-- Structural adequacy of a populated index: at least one composite, at
least one simple index per composite, and every position file lists every
point exactly once. -/
structure WfEnv (env : QEnv) : Prop where
  comp_pos : 1 ≤ env.numComp
  simp_pos : 1 ≤ env.numSimp
  files_perm : ∀ c < env.numComp, ∀ j < env.numSimp,
    (idsOf (env.files c j)).Perm (List.range env.numPoints)

/-- The cap on one axis lies strictly above a bound (trivially true for an
inactive axis). -/
def capAbove : Option ℚ → ℚ → Prop
  | none, _ => True
  | some x, b => b < x

theorem final_coverage (env : QEnv) (hwf : WfEnv env) (st : QState)
    (hinv : queryInv env st) (hempty : allEmptyB st = true) :
    st.promOrder.Perm (List.range env.numPoints) := by
  have hqempty : ∀ c < env.numComp, (st.comps.getD c default).queue = [] := by
    intro c hc
    exact (allEmptyB_spec st).mp hempty c (by rw [hinv.wf.1]; exact hc)
  have hOccLt : ∀ c < env.numComp, ∀ p < env.numPoints, fileOcc env c p = env.numSimp := by
    intro c hc p hp
    unfold fileOcc
    have hone : ∀ j ∈ Finset.range env.numSimp, (idsOf (env.files c j)).count p = 1 := by
      intro j hj
      rw [List.Perm.count_eq (hwf.files_perm c hc j (Finset.mem_range.mp hj))]
      exact List.count_eq_one_of_mem (List.nodup_range _) (List.mem_range.mpr hp)
    rw [Finset.sum_congr rfl hone]
    simp
  have hcounter : ∀ c, c < env.numComp → ∀ p,
      (st.comps.getD c default).counter p = fileOcc env c p := by
    intro c hc p
    have h1 := (hinv.comp c hc).cnt_pending p
    have h2 : pendingCt env c (st.comps.getD c default).queue p = 0 := by
      rw [hqempty c hc]
      rfl
    omega
  have hmemN : ∀ p, p ∈ st.promOrder ↔ p < env.numPoints := by
    intro p
    constructor
    · intro hp
      obtain ⟨c, hc, hmem⟩ := (hinv.prom_iff p).mp hp
      have hge := ((hinv.comp c hc).promoted_iff p).mp hmem
      rw [hcounter c hc p] at hge
      by_contra hcon
      have hzero : ∀ j ∈ Finset.range env.numSimp, (idsOf (env.files c j)).count p = 0 := by
        intro j hj
        rw [List.Perm.count_eq (hwf.files_perm c hc j (Finset.mem_range.mp hj))]
        exact List.count_eq_zero_of_not_mem (fun hmem2 => hcon (List.mem_range.mp hmem2))
      have hocc : fileOcc env c p = 0 := by
        unfold fileOcc
        rw [Finset.sum_congr rfl hzero]
        simp
      rw [hocc] at hge
      have := hwf.simp_pos
      omega
    · intro hp
      have hc0 : 0 < env.numComp := hwf.comp_pos
      apply (hinv.prom_iff p).mpr
      refine ⟨0, hc0, ?_⟩
      apply ((hinv.comp 0 hc0).promoted_iff p).mpr
      rw [hcounter 0 hc0 p, hOccLt 0 hc0 p hp]
  apply List.perm_iff_count.mpr
  intro a
  by_cases ha : a < env.numPoints
  · rw [List.count_eq_one_of_mem hinv.prom_nodup ((hmemN a).mpr ha),
      List.count_eq_one_of_mem (List.nodup_range _) (List.mem_range.mpr ha)]
  · rw [List.count_eq_zero_of_not_mem (fun hmem => ha ((hmemN a).mp hmem)),
      List.count_eq_zero_of_not_mem (fun hmem => ha (List.mem_range.mp hmem))]

theorem promOrder_length_le (env : QEnv) (hwf : WfEnv env) (st : QState)
    (hinv : queryInv env st) : st.promOrder.length ≤ env.numPoints := by
  have hsubset : st.promOrder ⊆ List.range env.numPoints := by
    intro p hp
    obtain ⟨c, hc, hmem⟩ := (hinv.prom_iff p).mp hp
    have hge := ((hinv.comp c hc).promoted_iff p).mp hmem
    have hcp := (hinv.comp c hc).cnt_pending p
    have hocc : 1 ≤ fileOcc env c p := by
      have := hwf.simp_pos
      omega
    by_contra hcon
    have hzero : ∀ j ∈ Finset.range env.numSimp, (idsOf (env.files c j)).count p = 0 := by
      intro j hj
      rw [List.Perm.count_eq (hwf.files_perm c hc j (Finset.mem_range.mp hj))]
      exact List.count_eq_zero_of_not_mem (fun hmem2 => hcon hmem2)
    have hocc0 : fileOcc env c p = 0 := by
      unfold fileOcc
      rw [Finset.sum_congr rfl hzero]
      simp
    omega
  have := List.Subperm.length_le (List.subperm_of_subset hinv.prom_nodup hsubset)
  simpa using this

theorem runQ_queryInv (env : QEnv) (hLs : 1 ≤ env.numSimp) : queryInv env (runQ env) :=
  runAux_inv env (runFuel env) (initQState env) (initQState_inv env hLs)

theorem runQ_exhausts (env : QEnv) (hwf : WfEnv env)
    (hv : capAbove (effVisit env) ((runFuel env : ℕ) : ℚ))
    (hr : capAbove (effRetrieve env) ((env.numPoints : ℕ) : ℚ)) :
    allEmptyB (runQ env) = true := by
  have hQI := runQ_queryInv env hwf.simp_pos
  have hstop : stoppedB env (runQ env) = true :=
    runAux_stops env (runFuel env) (initQState env) (initQState_wf env) (le_refl _)
  have hvisle : (runQ env).visited ≤ runFuel env := by
    have := hQI.vis_meas
    omega
  have hvFalse : capHitB (effVisit env) (runQ env).visited = false := by
    cases hEv : effVisit env with
    | none => rfl
    | some x =>
        unfold capAbove at hv
        rw [hEv] at hv
        unfold capHitB
        apply decide_eq_false
        intro hle
        have hc : ((runQ env).visited : ℚ) ≤ ((runFuel env : ℕ) : ℚ) := by
          exact_mod_cast hvisle
        linarith
  have hlenN := promOrder_length_le env hwf (runQ env) hQI
  have hrFalse : capHitB (effRetrieve env) (runQ env).promOrder.length = false := by
    cases hEr : effRetrieve env with
    | none => rfl
    | some x =>
        unfold capAbove at hr
        rw [hEr] at hr
        unfold capHitB
        apply decide_eq_false
        intro hle
        have hc : ((runQ env).promOrder.length : ℚ) ≤ ((env.numPoints : ℕ) : ℚ) := by
          exact_mod_cast hlenN
        linarith
  unfold stoppedB at hstop
  rw [hvFalse, hrFalse] at hstop
  simpa using hstop

/-- The brute-force answer: the `k` smallest exact squared distances from the
query to the whole point set. -/
def bruteForceSqDists (env : QEnv) : List ℚ :=
  (List.insertionSort (· ≤ ·) ((List.range env.numPoints).map (sqdistE env))).take
    env.num_neighbours

/-- Claim C1: on a populated index with `N ≤ 1000` points whose caps are high
enough that nothing stops the traversal early (in particular caps at their
maxima), a non-blind `dci_query` returns exactly the brute-force top-k by
Euclidean distance: the multiset of returned distances equals the brute-force
multiset (ties may resolve to any valid set of points). -/
theorem dci_query_exact (env : QEnv) (hwf : WfEnv env) (hN : env.numPoints ≤ 1000)
    (hblind : env.cfg.blind = false)
    (hv : capAbove (effVisit env) ((runFuel env : ℕ) : ℚ))
    (hr : capAbove (effRetrieve env) ((env.numPoints : ℕ) : ℚ)) :
    (((dci_query env).dists : List ℝ) : Multiset ℝ)
      = (((bruteForceSqDists env).map fun q => Real.sqrt ((q : ℚ) : ℝ) : List ℝ) :
          Multiset ℝ) := by
  have hQI := runQ_queryInv env hwf.simp_pos
  have hempty := runQ_exhausts env hwf hv hr
  have hperm := final_coverage env hwf (runQ env) hQI hempty
  have hheap := hQI.heap_inv hblind
  have hsorteq : List.insertionSort (· ≤ ·) ((runQ env).promOrder.map (sqdistE env))
      = List.insertionSort (· ≤ ·) ((List.range env.numPoints).map (sqdistE env)) :=
    List.eq_of_perm_of_sorted
      ((List.perm_insertionSort _ _).trans
        ((hperm.map _).trans (List.perm_insertionSort _ _).symm))
      (List.sorted_insertionSort _ _) (List.sorted_insertionSort _ _)
  rw [hsorteq] at hheap
  have hY : (dci_query_core env).2.1
      = (List.insertionSort distLE (runQ env).heap).map Prod.fst := by
    unfold dci_query_core
    rw [hblind]
    rfl
  have hYm : (((dci_query_core env).2.1 : List ℚ) : Multiset ℚ)
      = (((runQ env).heap.map Prod.fst : List ℚ) : Multiset ℚ) := by
    rw [hY]
    exact Multiset.coe_eq_coe.mpr ((List.perm_insertionSort distLE _).map Prod.fst)
  have hdists : (dci_query env).dists
      = (dci_query_core env).2.1.map (fun q => Real.sqrt ((q : ℚ) : ℝ)) := rfl
  rw [hdists, ← Multiset.map_coe, ← Multiset.map_coe, hYm, hheap]
  rfl

/-- A populated two-point index whose caps are inactive (no early stop). -/
def envW1 : QEnv :=
  { numPoints := 2, numComp := 1, numSimp := 1, dim := 1,
    data := fun p _ => (p : ℚ), query := fun _ => 0,
    files := fun _ _ => [⟨0, 0, 0⟩, ⟨1, 1, 1⟩],
    qproj := fun _ _ => 0,
    cfg := ⟨false, -1, -1, 0, 0, 1, 0⟩,
    num_neighbours := 1 }

theorem envW1_effVisit : effVisit envW1 = none := by
  norm_num [effVisit, effCap, envW1]

theorem envW1_effRetrieve : effRetrieve envW1 = none := by
  norm_num [effRetrieve, effCap, envW1]

theorem dci_query_exact_witness :
    (((dci_query envW1).dists : List ℝ) : Multiset ℝ)
      = (((bruteForceSqDists envW1).map fun q => Real.sqrt ((q : ℚ) : ℝ) : List ℝ) :
          Multiset ℝ) :=
  dci_query_exact envW1
    ⟨by decide, by decide, by
      intro c _ j _
      show (idsOf ([⟨0, 0, 0⟩, ⟨1, 1, 1⟩] : List idx_elem)).Perm (List.range 2)
      decide⟩
    (by decide) rfl
    (by rw [envW1_effVisit]; trivial)
    (by rw [envW1_effRetrieve]; trivial)

/-- Claim C4: for a non-blind query the output is the retained heap sorted
ascending by true distance, `num_returned` equals exactly the number of
neighbours returned — `min k (number of distinct points evaluated)`, which
may be less than `k` when the caps fired early — and the shortfall is
reported through the returned count rather than as an error. -/
theorem dci_query_output_spec (env : QEnv) (hLs : 1 ≤ env.numSimp)
    (hblind : env.cfg.blind = false) :
    (dci_query env).dists.Sorted (· ≤ ·) ∧
    (dci_query env).num_returned = (dci_query env).dists.length ∧
    (dci_query env).num_returned = (dci_query env).ids.length ∧
    (dci_query env).num_returned
      = min env.num_neighbours (runQ env).promOrder.length ∧
    (dci_query env).num_returned ≤ env.num_neighbours ∧
    (dci_query env).dists
      = (List.insertionSort distLE (runQ env).heap).map
          (fun e => Real.sqrt ((e.1 : ℚ) : ℝ)) := by
  have hQI := runQ_queryInv env hLs
  have hheap := hQI.heap_inv hblind
  have hlen : (runQ env).heap.length
      = min env.num_neighbours (runQ env).promOrder.length := by
    have hcard := congrArg Multiset.card hheap
    simp only [Multiset.coe_card, List.length_map, List.length_take] at hcard
    rw [hcard]
    congr 1
    rw [(List.perm_insertionSort (· ≤ ·) _).length_eq, List.length_map]
  have hids : (dci_query_core env).1
      = (List.insertionSort distLE (runQ env).heap).map Prod.snd := by
    unfold dci_query_core
    rw [hblind]
    rfl
  have hsq : (dci_query_core env).2.1
      = (List.insertionSort distLE (runQ env).heap).map Prod.fst := by
    unfold dci_query_core
    rw [hblind]
    rfl
  have hnr : (dci_query_core env).2.2
      = (List.insertionSort distLE (runQ env).heap).length := by
    unfold dci_query_core
    rw [hblind]
    rfl
  have hsortlen : (List.insertionSort distLE (runQ env).heap).length
      = (runQ env).heap.length := (List.perm_insertionSort distLE _).length_eq
  have hdists : (dci_query env).dists
      = (dci_query_core env).2.1.map (fun q => Real.sqrt ((q : ℚ) : ℝ)) := rfl
  have hidsq : (dci_query env).ids = (dci_query_core env).1 := rfl
  have hnrq : (dci_query env).num_returned = (dci_query_core env).2.2 := rfl
  refine ⟨?_, ?_, ?_, ?_, ?_, ?_⟩
  · rw [hdists, hsq, List.map_map]
    have hs : (List.insertionSort distLE (runQ env).heap).Sorted distLE :=
      List.sorted_insertionSort distLE _
    rw [List.Sorted, List.pairwise_map]
    exact hs.imp (fun {a b} hab =>
      Real.sqrt_le_sqrt (by exact_mod_cast (hab : a.1 ≤ b.1)))
  · rw [hnrq, hnr, hdists, List.length_map, hsq, List.length_map]
  · rw [hnrq, hnr, hidsq, hids, List.length_map]
  · rw [hnrq, hnr, hsortlen, hlen]
  · rw [hnrq, hnr, hsortlen, hlen]
    exact min_le_left _ _
  · rw [hdists, hsq, List.map_map]
    rfl

theorem dci_query_output_spec_witness :
    (dci_query envW).dists.Sorted (· ≤ ·) ∧
    (dci_query envW).num_returned = (dci_query envW).dists.length ∧
    (dci_query envW).num_returned = (dci_query envW).ids.length ∧
    (dci_query envW).num_returned
      = min envW.num_neighbours (runQ envW).promOrder.length ∧
    (dci_query envW).num_returned ≤ envW.num_neighbours ∧
    (dci_query envW).dists
      = (List.insertionSort distLE (runQ envW).heap).map
          (fun e => Real.sqrt ((e.1 : ℚ) : ℝ)) :=
  dci_query_output_spec envW (by decide) rfl

/-! ### Claim C3: blind-mode semantics -/

/-- One engine step adds at most one point to the promotion-order list. -/
theorem stepQ_promOrder_le (env : QEnv) (st : QState) :
    (stepQ env st).promOrder.length ≤ st.promOrder.length + 1 := by
  unfold stepQ
  split
  · simp
  · split
    · simp
    · dsimp only
      split
      · simp
      · simp

/-- While the retrieve cap `rn` has not been exceeded, the run keeps the
promotion-order list at length at most `rn`: a step is taken only when the
cap test fails, i.e. when strictly fewer than `rn` points are promoted. -/
theorem runAux_promOrder_le (env : QEnv) (rn : ℕ)
    (hr : effRetrieve env = some ((rn : ℕ) : ℚ)) :
    ∀ (n : ℕ) (st : QState), st.promOrder.length ≤ rn →
      (runAux env n st).promOrder.length ≤ rn := by
  intro n
  induction n with
  | zero => intro st h; exact h
  | succ n ih =>
      intro st h
      by_cases hs : stoppedB env st = true
      · rw [runAux_stopped env (n + 1) st hs]
        exact h
      · have hrun : runAux env (n + 1) st = runAux env n (stepQ env st) := by
          have hsf : stoppedB env st = false := Bool.not_eq_true _ |>.mp hs
          simp [runAux, hsf]
        rw [hrun]
        apply ih
        have hcap : ¬ capHitB (effRetrieve env) st.promOrder.length = true := by
          unfold stoppedB at hs
          simp only [Bool.or_eq_true, not_or] at hs
          exact hs.1.2
        rw [hr] at hcap
        unfold capHitB at hcap
        simp only [decide_eq_true_eq] at hcap
        have hlt : st.promOrder.length < rn := by exact_mod_cast lt_of_not_le hcap
        have := stepQ_promOrder_le env st
        omega

/-- Claim C3: in blind mode no Euclidean distance is ever computed, the
output is exactly the promotion-order list of distinct promoted points
(duplicates suppressed), `num_returned` is its length, the list never
exceeds the effective retrieve cap `rn`, and when the run stopped neither by
the visit cap nor by queue exhaustion it stopped precisely because `rn`
distinct points had been collected. -/
theorem dci_query_blind_spec (env : QEnv) (hLs : 1 ≤ env.numSimp)
    (hblind : env.cfg.blind = true) (rn : ℕ)
    (hr : effRetrieve env = some ((rn : ℕ) : ℚ)) :
    (runQ env).nDist = 0 ∧
    (dci_query env).dists = [] ∧
    (dci_query env).ids = (runQ env).promOrder ∧
    (dci_query env).num_returned = (dci_query env).ids.length ∧
    (dci_query env).ids.Nodup ∧
    (dci_query env).ids.length ≤ rn ∧
    (capHitB (effVisit env) (runQ env).visited = false →
      allEmptyB (runQ env) = false →
      (dci_query env).ids.length = rn) := by
  have hQI := runQ_queryInv env hLs
  have hcore : dci_query_core env
      = ((runQ env).promOrder, [], (runQ env).promOrder.length) := by
    unfold dci_query_core
    rw [hblind]
    rfl
  have hids : (dci_query env).ids = (runQ env).promOrder := by
    show (dci_query_core env).1 = (runQ env).promOrder
    rw [hcore]
  have hdists : (dci_query env).dists = [] := by
    show ((dci_query_core env).2.1).map (fun q => Real.sqrt ((q : ℚ) : ℝ)) = []
    rw [hcore]
    rfl
  have hnr : (dci_query env).num_returned = (runQ env).promOrder.length := by
    show (dci_query_core env).2.2 = (runQ env).promOrder.length
    rw [hcore]
  have hlenle : (runQ env).promOrder.length ≤ rn := by
    have h0 : (initQState env).promOrder.length ≤ rn := by
      simp [initQState]
    exact runAux_promOrder_le env rn hr (runFuel env) (initQState env) h0
  refine ⟨?_, hdists, hids, ?_, ?_, ?_, ?_⟩
  · have := hQI.ndist_eq
    rw [hblind] at this
    simpa using this
  · rw [hnr, hids]
  · rw [hids]
    exact hQI.prom_nodup
  · rw [hids]
    exact hlenle
  · intro hv hae
    have hstop : stoppedB env (runQ env) = true :=
      runAux_stops env (runFuel env) (initQState env) (initQState_wf env) (le_refl _)
    unfold stoppedB at hstop
    simp only [Bool.or_eq_true] at hstop
    rcases hstop with (hstop | hstop) | hstop
    · rw [hv] at hstop
      cases hstop
    · rw [hr] at hstop
      unfold capHitB at hstop
      simp only [decide_eq_true_eq] at hstop
      have hge : rn ≤ (runQ env).promOrder.length := by exact_mod_cast hstop
      rw [hids]
      omega
    · rw [hae] at hstop
      cases hstop

/-- A concrete blind query on the two-point index: retrieve cap 1. -/
def envW3 : QEnv :=
  { numPoints := 2, numComp := 1, numSimp := 1, dim := 1,
    data := fun p _ => (p : ℚ), query := fun _ => 0,
    files := fun _ _ => [⟨0, 0, 0⟩, ⟨1, 1, 1⟩],
    qproj := fun _ _ => 0,
    cfg := ⟨true, 100, 1, 0, 0, 1, 0⟩,
    num_neighbours := 1 }

theorem dci_query_blind_spec_witness :
    (runQ envW3).nDist = 0 ∧
    (dci_query envW3).dists = [] ∧
    (dci_query envW3).ids = (runQ envW3).promOrder ∧
    (dci_query envW3).num_returned = (dci_query envW3).ids.length ∧
    (dci_query envW3).ids.Nodup ∧
    (dci_query envW3).ids.length ≤ 1 ∧
    (capHitB (effVisit envW3) (runQ envW3).visited = false →
      allEmptyB (runQ envW3) = false →
      (dci_query envW3).ids.length = 1) :=
  dci_query_blind_spec envW3 (by decide) rfl 1
    (by norm_num [effRetrieve, effCap, envW3])

/-! ### Claim C6: clear / reset frame -/

/-- `dci` (dci.h lines 39-51): the index object.  The raw point array is
borrowed, not owned, so it is not part of the modelled state; the per-level
position files are the `indices` field. -/
structure dci where
  dim : ℕ
  num_comp_indices : ℕ
  num_simp_indices : ℕ
  num_points : ℕ
  num_levels : ℕ
  num_coarse_points : ℕ
  indices : List (List idx_elem)
  proj_vec : List ℝ

/-- Modelled from the spec: the L2 norm of column `j` of a column-major
`dim x m` matrix (spec §4.1, sample). -/
noncomputable def colNorm (dim : ℕ) (xs : List ℝ) (j : ℕ) : ℝ :=
  Real.sqrt (∑ i ∈ Finset.range dim, (xs.getD (j * dim + i) 0) ^ 2)

/-- Modelled from the spec: normalize each column of a column-major
`dim x m` matrix to unit L2 norm (spec §4.1, sample). -/
noncomputable def normalizeCols (dim : ℕ) (xs : List ℝ) : List ℝ :=
  xs.mapIdx fun idx x => x / colNorm dim xs (idx / dim)

/-- Modelled from the spec: sample a `dim x m` projection bank — fill every
entry from the standard-normal source, then normalize each column to unit
norm (spec §4.1, sample).  `none` only when the rejection-sampling fuel runs
out. -/
noncomputable def gen_proj_vec (dim m : ℕ) (u : ℕ → ℚ) (fuel : ℕ)
    (st : RandState) : Option (List ℝ × RandState) :=
  (randNormalRun u fuel (dim * m) st).map fun r => (normalizeCols dim r.1, r.2)

/-- Modelled from the spec: `dci_clear` (dci.h line 75) — drop the per-level
position files and zero the point counters, keeping the projection bank and
consuming no random draws (spec §5: "as reset but do not re-sample"; §3
lifecycle: "clearing ... preserves the projection bank unless a reset is
requested").  The RNG state is threaded to make the no-draw frame provable. -/
def dci_clear (d : dci) (st : RandState) : dci × RandState :=
  ({ d with indices := [], num_points := 0, num_levels := 0,
            num_coarse_points := 0 }, st)

/-- Modelled from the spec: `dci_reset` (dci.h lines 77-78) — the same
clearing, then re-sample the projection directions from the RNG stream
(spec §5: "drop per-level position files, keep projection bank shape;
re-sample projection directions"). -/
noncomputable def dci_reset (u : ℕ → ℚ) (fuel : ℕ) (d : dci) (st : RandState) :
    Option (dci × RandState) :=
  (gen_proj_vec d.dim (d.num_comp_indices * d.num_simp_indices) u fuel st).map
    fun r => ({ (dci_clear d st).1 with proj_vec := r.1 }, r.2)

/-- Claim C6: `dci_clear` empties the position files and zeros the point
counters while leaving the projection bank and the RNG state unchanged
(no random draws consumed); `dci_reset` performs the same clearing and
additionally re-samples the projection bank from the RNG stream, advancing
it; `dim`, `num_comp_indices` and `num_simp_indices` are unchanged by
both. -/
theorem dci_clear_reset_frame (d : dci) (st : RandState) (u : ℕ → ℚ)
    (fuel : ℕ) (d' : dci) (st' : RandState)
    (hres : dci_reset u fuel d st = some (d', st')) :
    ((dci_clear d st).1.indices = [] ∧
     (dci_clear d st).1.num_points = 0 ∧
     (dci_clear d st).1.num_levels = 0 ∧
     (dci_clear d st).1.num_coarse_points = 0 ∧
     (dci_clear d st).1.proj_vec = d.proj_vec ∧
     (dci_clear d st).2 = st) ∧
    ((dci_clear d st).1.dim = d.dim ∧
     (dci_clear d st).1.num_comp_indices = d.num_comp_indices ∧
     (dci_clear d st).1.num_simp_indices = d.num_simp_indices) ∧
    (d'.indices = [] ∧ d'.num_points = 0 ∧ d'.num_levels = 0 ∧
     d'.num_coarse_points = 0) ∧
    (d'.dim = d.dim ∧ d'.num_comp_indices = d.num_comp_indices ∧
     d'.num_simp_indices = d.num_simp_indices) ∧
    ∃ draws : List ℝ,
      randNormalRun u fuel (d.dim * (d.num_comp_indices * d.num_simp_indices)) st
        = some (draws, st') ∧
      d'.proj_vec = normalizeCols d.dim draws := by
  unfold dci_reset gen_proj_vec at hres
  rw [Option.map_map] at hres
  rcases Option.map_eq_some'.mp hres with ⟨r0, hrun, hg⟩
  have hd : ({ (dci_clear d st).1 with proj_vec := normalizeCols d.dim r0.1 } : dci)
      = d' := congrArg Prod.fst hg
  have hst : r0.2 = st' := congrArg Prod.snd hg
  subst hd
  subst hst
  refine ⟨⟨rfl, rfl, rfl, rfl, rfl, rfl⟩, ⟨rfl, rfl, rfl⟩, ⟨rfl, rfl, rfl, rfl⟩,
    ⟨rfl, rfl, rfl⟩, r0.1, hrun, rfl⟩

/-- A concrete populated two-point index for the clear/reset witness. -/
def dciW : dci :=
  { dim := 1, num_comp_indices := 1, num_simp_indices := 1, num_points := 2,
    num_levels := 1, num_coarse_points := 2,
    indices := [[⟨0, 0, 0⟩, ⟨1, 1, 1⟩]], proj_vec := [1] }

/-- The index after a reset that re-sampled one projection scalar. -/
noncomputable def dciWReset : dci :=
  { dim := 1, num_comp_indices := 1, num_simp_indices := 1, num_points := 0,
    num_levels := 0, num_coarse_points := 0, indices := [],
    proj_vec := normalizeCols 1 [wVal] }

theorem randNormalRun_dciW :
    randNormalRun wStream 1
        (dciW.dim * (dciW.num_comp_indices * dciW.num_simp_indices))
        initRandState
      = some ([wVal], wState) := by
  show randNormalRun wStream 1 1 initRandState = some ([wVal], wState)
  show (rand_normal wStream 1 initRandState).bind
      (fun r => (randNormalRun wStream 1 0 r.2).bind fun s => some (r.1 :: s.1, s.2))
    = some ([wVal], wState)
  rw [rand_normal_at_wStream]
  rfl

theorem dci_clear_reset_frame_witness :
    ((dci_clear dciW initRandState).1.indices = [] ∧
     (dci_clear dciW initRandState).1.num_points = 0 ∧
     (dci_clear dciW initRandState).1.num_levels = 0 ∧
     (dci_clear dciW initRandState).1.num_coarse_points = 0 ∧
     (dci_clear dciW initRandState).1.proj_vec = dciW.proj_vec ∧
     (dci_clear dciW initRandState).2 = initRandState) ∧
    ((dci_clear dciW initRandState).1.dim = dciW.dim ∧
     (dci_clear dciW initRandState).1.num_comp_indices = dciW.num_comp_indices ∧
     (dci_clear dciW initRandState).1.num_simp_indices = dciW.num_simp_indices) ∧
    (dciWReset.indices = [] ∧ dciWReset.num_points = 0 ∧
     dciWReset.num_levels = 0 ∧ dciWReset.num_coarse_points = 0) ∧
    (dciWReset.dim = dciW.dim ∧
     dciWReset.num_comp_indices = dciW.num_comp_indices ∧
     dciWReset.num_simp_indices = dciW.num_simp_indices) ∧
    ∃ draws : List ℝ,
      randNormalRun wStream 1
          (dciW.dim * (dciW.num_comp_indices * dciW.num_simp_indices))
          initRandState
        = some (draws, wState) ∧
      dciWReset.proj_vec = normalizeCols dciW.dim draws :=
  dci_clear_reset_frame dciW initRandState wStream 1 dciWReset wState (by
    unfold dci_reset gen_proj_vec
    rw [randNormalRun_dciW]
    rfl)
